import Mathlib

set_option maxRecDepth 100000

/-!
# Verification of the gauth OTP core

A shallow embedding of the OTP code generator `gauth` (HOTP/TOTP engine,
config-file crypto, config parser and otpauth URL model), with theorems
settling the specification's claims about it.

Go byte strings (`string`, `[]byte`) are modelled as `List Nat` with byte
values `< 256`; machine integers are `Nat`/`Int` with explicit reduction
modulo `2 ^ 32` / `2 ^ 64` where the Go code relies on fixed-width
wraparound.  Code that can fail returns `Option`/`Except`; a Go runtime
panic (out-of-range slice or index) is modelled as `none`.
-/

namespace Gauth

/-- Go strings and byte slices, as lists of byte values. -/
abbrev Bytes := List Nat

/-- Bytes of an ASCII string literal.  Used only for ASCII text, where the
Lean code points coincide with the Go string's UTF-8 bytes. -/
def bytesOf (s : String) : Bytes := s.toList.map Char.toNat

/-- Truncation to a 32-bit word (`uint32` wraparound). -/
def u32 (x : Nat) : Nat := x % 4294967296

/-- Truncation to a 64-bit word (`uint64` wraparound). -/
def u64 (x : Nat) : Nat := x % 18446744073709551616

/-- Left rotation of a 32-bit word. -/
def rotl32 (x n : Nat) : Nat := u32 (x <<< n) ||| (x >>> (32 - n))

/-- Right rotation of a 32-bit word. -/
def rotr32 (x n : Nat) : Nat := (x >>> n) ||| u32 (x <<< (32 - n))

/-- Right rotation of a 64-bit word. -/
def rotr64 (x n : Nat) : Nat := (x >>> n) ||| u64 (x <<< (64 - n))

/-- Big-endian 4-byte serialization of a 32-bit word
(`binary.BigEndian.PutUint32`). -/
def be32 (x : Nat) : Bytes :=
  [x / 16777216 % 256, x / 65536 % 256, x / 256 % 256, x % 256]

/-- Big-endian 8-byte serialization of a 64-bit word
(`binary.BigEndian.PutUint64`). -/
def be64 (x : Nat) : Bytes :=
  [x / 72057594037927936 % 256, x / 281474976710656 % 256,
   x / 1099511627776 % 256, x / 4294967296 % 256,
   x / 16777216 % 256, x / 65536 % 256, x / 256 % 256, x % 256]

/-- Big-endian 16-byte serialization of a 128-bit value (SHA-512 length
field). -/
def be128 (x : Nat) : Bytes := be64 (x / 18446744073709551616) ++ be64 (u64 x)

/-- Big-endian 32-bit words of a byte string (leftover bytes, which never
occur on whole blocks, are dropped). -/
def be32Words : Bytes → List Nat
  | a :: b :: c :: d :: t => (((a * 256 + b) * 256 + c) * 256 + d) :: be32Words t
  | _ => []

/-- Big-endian 64-bit words of a byte string. -/
def be64Words : Bytes → List Nat
  | a :: b :: c :: d :: e :: f :: g :: h :: t =>
      (((((((a * 256 + b) * 256 + c) * 256 + d) * 256 + e) * 256 + f) * 256 + g) * 256 + h)
        :: be64Words t
  | _ => []

/-- Split a byte string into consecutive chunks of `size` bytes (fuel-driven
so that it reduces structurally). -/
def chunksF (size : Nat) : Nat → Bytes → List Bytes
  | 0, _ => []
  | _, [] => []
  | fuel + 1, l => l.take size :: chunksF size fuel (l.drop size)

/-- Split a byte string into consecutive chunks of `size` bytes. -/
def chunks (size : Nat) (l : Bytes) : List Bytes := chunksF size l.length l

/-! ## SHA-1 (FIPS 180-4, as implemented by Go `crypto/sha1`) -/

/-- Merkle–Damgård padding with 64-byte blocks and a 64-bit big-endian bit
length (shared by SHA-1 and SHA-256). -/
def mdPad64 (msg : Bytes) : Bytes :=
  msg ++ 128 :: List.replicate ((119 - msg.length % 64) % 64) 0 ++ be64 (u64 (8 * msg.length))

/-- SHA-1 five-word state. -/
abbrev State5 := Nat × Nat × Nat × Nat × Nat

/-- SHA-1 message-schedule extension; `acc` holds the words produced so far,
most recent first. -/
def sha1ExtendF : Nat → List Nat → List Nat
  | 0, acc => acc.reverse
  | fuel + 1, acc =>
      sha1ExtendF fuel
        (rotl32 (acc.getD 2 0 ^^^ acc.getD 7 0 ^^^ acc.getD 13 0 ^^^ acc.getD 15 0) 1 :: acc)

/-- The 80-word SHA-1 message schedule of one block. -/
def sha1Schedule (ws : List Nat) : List Nat := sha1ExtendF 64 ws.reverse

/-- The 80 SHA-1 rounds; `i` is the round index. -/
def sha1Rounds : Nat → List Nat → State5 → State5
  | _, [], st => st
  | i, w :: ws, (a, b, c, d, e) =>
      let f :=
        if i < 20 then (b &&& c) ||| ((b ^^^ 4294967295) &&& d)
        else if i < 40 then b ^^^ c ^^^ d
        else if i < 60 then (b &&& c) ||| (b &&& d) ||| (c &&& d)
        else b ^^^ c ^^^ d
      let k :=
        if i < 20 then 1518500249
        else if i < 40 then 1859775393
        else if i < 60 then 2400959708
        else 3395469782
      sha1Rounds (i + 1) ws (u32 (rotl32 a 5 + f + e + k + w), a, rotl32 b 30, c, d)

/-- SHA-1 compression of one 64-byte block. -/
def sha1Compress (st : State5) (block : Bytes) : State5 :=
  match st, sha1Rounds 0 (sha1Schedule (be32Words block)) st with
  | (h0, h1, h2, h3, h4), (a, b, c, d, e) =>
      (u32 (h0 + a), u32 (h1 + b), u32 (h2 + c), u32 (h3 + d), u32 (h4 + e))

/-- Serialization of the SHA-1 state to the 20-byte digest. -/
def sha1Out (st : State5) : Bytes :=
  be32 st.1 ++ be32 st.2.1 ++ be32 st.2.2.1 ++ be32 st.2.2.2.1 ++ be32 st.2.2.2.2

/-- SHA-1 of a byte string. -/
def sha1Bytes (msg : Bytes) : Bytes :=
  sha1Out ((chunks 64 (mdPad64 msg)).foldl sha1Compress
    (1732584193, 4023233417, 2562383102, 271733878, 3285377520))

/-! ## SHA-256 (FIPS 180-4, as implemented by Go `crypto/sha256`) -/

/-- SHA-256 eight-word state. -/
abbrev State8 := Nat × Nat × Nat × Nat × Nat × Nat × Nat × Nat

/-- The 64 SHA-256 round constants. -/
def sha256K : List Nat :=
  [1116352408, 1899447441, 3049323471, 3921009573, 961987163, 1508970993,
   2453635748, 2870763221, 3624381080, 310598401, 607225278, 1426881987,
   1925078388, 2162078206, 2614888103, 3248222580, 3835390401, 4022224774,
   264347078, 604807628, 770255983, 1249150122, 1555081692, 1996064986,
   2554220882, 2821834349, 2952996808, 3210313671, 3336571891, 3584528711,
   113926993, 338241895, 666307205, 773529912, 1294757372, 1396182291,
   1695183700, 1986661051, 2177026350, 2456956037, 2730485921, 2820302411,
   3259730800, 3345764771, 3516065817, 3600352804, 4094571909, 275423344,
   430227734, 506948616, 659060556, 883997877, 958139571, 1322822218,
   1537002063, 1747873779, 1955562222, 2024104815, 2227730452, 2361852424,
   2428436474, 2756734187, 3204031479, 3329325298]

/-- SHA-256 `Σ₀`. -/
def bsig0 (x : Nat) : Nat := rotr32 x 2 ^^^ rotr32 x 13 ^^^ rotr32 x 22

/-- SHA-256 `Σ₁`. -/
def bsig1 (x : Nat) : Nat := rotr32 x 6 ^^^ rotr32 x 11 ^^^ rotr32 x 25

/-- SHA-256 `σ₀`. -/
def ssig0 (x : Nat) : Nat := rotr32 x 7 ^^^ rotr32 x 18 ^^^ (x >>> 3)

/-- SHA-256 `σ₁`. -/
def ssig1 (x : Nat) : Nat := rotr32 x 17 ^^^ rotr32 x 19 ^^^ (x >>> 10)

/-- SHA-256 message-schedule extension; `acc` holds the words produced so
far, most recent first. -/
def sha256ExtendF : Nat → List Nat → List Nat
  | 0, acc => acc.reverse
  | fuel + 1, acc =>
      sha256ExtendF fuel
        (u32 (ssig1 (acc.getD 1 0) + acc.getD 6 0 + ssig0 (acc.getD 14 0) + acc.getD 15 0) :: acc)

/-- The SHA-256 rounds, consuming `(Kᵢ, Wᵢ)` pairs. -/
def sha256Rounds : List (Nat × Nat) → State8 → State8
  | [], st => st
  | (k, w) :: rest, (a, b, c, d, e, f, g, h) =>
      let t1 := u32 (h + bsig1 e + ((e &&& f) ^^^ ((e ^^^ 4294967295) &&& g)) + k + w)
      let t2 := u32 (bsig0 a + ((a &&& b) ^^^ (a &&& c) ^^^ (b &&& c)))
      sha256Rounds rest (u32 (t1 + t2), a, b, c, u32 (d + t1), e, f, g)

/-- SHA-256 compression of one 64-byte block. -/
def sha256Compress (st : State8) (block : Bytes) : State8 :=
  match st, sha256Rounds (sha256K.zip (sha256ExtendF 48 (be32Words block).reverse)) st with
  | (h0, h1, h2, h3, h4, h5, h6, h7), (a, b, c, d, e, f, g, h) =>
      (u32 (h0 + a), u32 (h1 + b), u32 (h2 + c), u32 (h3 + d),
       u32 (h4 + e), u32 (h5 + f), u32 (h6 + g), u32 (h7 + h))

/-- Serialization of an eight-word 32-bit state to the 32-byte digest. -/
def sha256Out (st : State8) : Bytes :=
  be32 st.1 ++ be32 st.2.1 ++ be32 st.2.2.1 ++ be32 st.2.2.2.1 ++
  be32 st.2.2.2.2.1 ++ be32 st.2.2.2.2.2.1 ++ be32 st.2.2.2.2.2.2.1 ++ be32 st.2.2.2.2.2.2.2

/-- SHA-256 of a byte string. -/
def sha256Bytes (msg : Bytes) : Bytes :=
  sha256Out ((chunks 64 (mdPad64 msg)).foldl sha256Compress
    (1779033703, 3144134277, 1013904242, 2773480762,
     1359893119, 2600822924, 528734635, 1541459225))

/-! ## SHA-512 (FIPS 180-4, as implemented by Go `crypto/sha512`) -/

/-- The 80 SHA-512 round constants. -/
def sha512K : List Nat :=
  [4794697086780616226, 8158064640168781261, 13096744586834688815, 16840607885511220156,
   4131703408338449720, 6480981068601479193, 10538285296894168987, 12329834152419229976,
   15566598209576043074, 1334009975649890238, 2608012711638119052, 6128411473006802146,
   8268148722764581231, 9286055187155687089, 11230858885718282805, 13951009754708518548,
   16472876342353939154, 17275323862435702243, 1135362057144423861, 2597628984639134821,
   3308224258029322869, 5365058923640841347, 6679025012923562964, 8573033837759648693,
   10970295158949994411, 12119686244451234320, 12683024718118986047, 13788192230050041572,
   14330467153632333762, 15395433587784984357, 489312712824947311, 1452737877330783856,
   2861767655752347644, 3322285676063803686, 5560940570517711597, 5996557281743188959,
   7280758554555802590, 8532644243296465576, 9350256976987008742, 10552545826968843579,
   11727347734174303076, 12113106623233404929, 14000437183269869457, 14369950271660146224,
   15101387698204529176, 15463397548674623760, 17586052441742319658, 1182934255886127544,
   1847814050463011016, 2177327727835720531, 2830643537854262169, 3796741975233480872,
   4115178125766777443, 5681478168544905931, 6601373596472566643, 7507060721942968483,
   8399075790359081724, 8693463985226723168, 9568029438360202098, 10144078919501101548,
   10430055236837252648, 11840083180663258601, 13761210420658862357, 14299343276471374635,
   14566680578165727644, 15097957966210449927, 16922976911328602910, 17689382322260857208,
   500013540394364858, 748580250866718886, 1242879168328830382, 1977374033974150939,
   2944078676154940804, 3659926193048069267, 4368137639120453308, 4836135668995329356,
   5532061633213252278, 6448918945643986474, 6902733635092675308, 7801388544844847127]

/-- Merkle–Damgård padding with 128-byte blocks and a 128-bit big-endian bit
length (SHA-512). -/
def mdPad128 (msg : Bytes) : Bytes :=
  msg ++ 128 :: List.replicate ((239 - msg.length % 128) % 128) 0 ++ be128 (8 * msg.length)

/-- SHA-512 `Σ₀`. -/
def bsig0w (x : Nat) : Nat := rotr64 x 28 ^^^ rotr64 x 34 ^^^ rotr64 x 39

/-- SHA-512 `Σ₁`. -/
def bsig1w (x : Nat) : Nat := rotr64 x 14 ^^^ rotr64 x 18 ^^^ rotr64 x 41

/-- SHA-512 `σ₀`. -/
def ssig0w (x : Nat) : Nat := rotr64 x 1 ^^^ rotr64 x 8 ^^^ (x >>> 7)

/-- SHA-512 `σ₁`. -/
def ssig1w (x : Nat) : Nat := rotr64 x 19 ^^^ rotr64 x 61 ^^^ (x >>> 6)

/-- SHA-512 message-schedule extension. -/
def sha512ExtendF : Nat → List Nat → List Nat
  | 0, acc => acc.reverse
  | fuel + 1, acc =>
      sha512ExtendF fuel
        (u64 (ssig1w (acc.getD 1 0) + acc.getD 6 0 + ssig0w (acc.getD 14 0) + acc.getD 15 0) :: acc)

/-- The SHA-512 rounds, consuming `(Kᵢ, Wᵢ)` pairs. -/
def sha512Rounds : List (Nat × Nat) → State8 → State8
  | [], st => st
  | (k, w) :: rest, (a, b, c, d, e, f, g, h) =>
      let t1 := u64 (h + bsig1w e + ((e &&& f) ^^^ ((e ^^^ 18446744073709551615) &&& g)) + k + w)
      let t2 := u64 (bsig0w a + ((a &&& b) ^^^ (a &&& c) ^^^ (b &&& c)))
      sha512Rounds rest (u64 (t1 + t2), a, b, c, u64 (d + t1), e, f, g)

/-- SHA-512 compression of one 128-byte block. -/
def sha512Compress (st : State8) (block : Bytes) : State8 :=
  match st, sha512Rounds (sha512K.zip (sha512ExtendF 64 (be64Words block).reverse)) st with
  | (h0, h1, h2, h3, h4, h5, h6, h7), (a, b, c, d, e, f, g, h) =>
      (u64 (h0 + a), u64 (h1 + b), u64 (h2 + c), u64 (h3 + d),
       u64 (h4 + e), u64 (h5 + f), u64 (h6 + g), u64 (h7 + h))

/-- Serialization of an eight-word 64-bit state to the 64-byte digest. -/
def sha512Out (st : State8) : Bytes :=
  be64 st.1 ++ be64 st.2.1 ++ be64 st.2.2.1 ++ be64 st.2.2.2.1 ++
  be64 st.2.2.2.2.1 ++ be64 st.2.2.2.2.2.1 ++ be64 st.2.2.2.2.2.2.1 ++ be64 st.2.2.2.2.2.2.2

/-- SHA-512 of a byte string. -/
def sha512Bytes (msg : Bytes) : Bytes :=
  sha512Out ((chunks 128 (mdPad128 msg)).foldl sha512Compress
    (7640891576956012808, 13503953896175478587, 4354685564936845355, 11912009170470909681,
     5840696475078001361, 11170449401992604703, 2270897969802886507, 6620516959819538809))



/-! ## Byte-boundedness of the digests -/

/-- Every byte of a `be32` serialization is `< 256`. -/
theorem be32_mem_lt (x : Nat) : ∀ b ∈ be32 x, b < 256 := by
  intro b hb
  simp only [be32, List.mem_cons, List.not_mem_nil, or_false] at hb
  rcases hb with h | h | h | h <;> subst h <;> exact Nat.mod_lt _ (by norm_num)

/-- Every byte of a `be64` serialization is `< 256`. -/
theorem be64_mem_lt (x : Nat) : ∀ b ∈ be64 x, b < 256 := by
  intro b hb
  simp only [be64, List.mem_cons, List.not_mem_nil, or_false] at hb
  rcases hb with h | h | h | h | h | h | h | h <;> subst h <;>
    exact Nat.mod_lt _ (by norm_num)

/-- Every byte of a SHA-1 digest is `< 256`. -/
theorem sha1Bytes_mem_lt (msg : Bytes) : ∀ b ∈ sha1Bytes msg, b < 256 := by
  intro b hb
  simp only [sha1Bytes, sha1Out, List.mem_append] at hb
  rcases hb with ((((h | h) | h) | h) | h) <;> exact be32_mem_lt _ b h

/-- Every byte of a SHA-256 digest is `< 256`. -/
theorem sha256Bytes_mem_lt (msg : Bytes) : ∀ b ∈ sha256Bytes msg, b < 256 := by
  intro b hb
  simp only [sha256Bytes, sha256Out, List.mem_append] at hb
  rcases hb with (((((((h | h) | h) | h) | h) | h) | h) | h) <;> exact be32_mem_lt _ b h

/-- Every byte of a SHA-512 digest is `< 256`. -/
theorem sha512Bytes_mem_lt (msg : Bytes) : ∀ b ∈ sha512Bytes msg, b < 256 := by
  intro b hb
  simp only [sha512Bytes, sha512Out, List.mem_append] at hb
  rcases hb with (((((((h | h) | h) | h) | h) | h) | h) | h) <;> exact be64_mem_lt _ b h

/-! ## HMAC (Go `crypto/hmac`, FIPS 198-1) -/

/-- A Go `hash.Hash` constructor as used by the repository: the hash
function on whole messages together with its block size (`h.BlockSize()`),
and the invariant that it produces bytes.  Corresponds to the
`func() hash.Hash` values returned by `sha1.New`, `sha256.New`,
`sha512.New`. -/
structure HashFn where
  f : Bytes → Bytes
  blockSize : Nat
  wf : ∀ msg, ∀ b ∈ f msg, b < 256

/-- `sha1.New` (block size 64). -/
def sha1H : HashFn := ⟨sha1Bytes, 64, sha1Bytes_mem_lt⟩

/-- `sha256.New` (block size 64). -/
def sha256H : HashFn := ⟨sha256Bytes, 64, sha256Bytes_mem_lt⟩

/-- `sha512.New` (block size 128). -/
def sha512H : HashFn := ⟨sha512Bytes, 128, sha512Bytes_mem_lt⟩

/-- `hmac.New(H.New, key)` applied to `msg`: keys longer than the block size
are first hashed, the key is zero-padded to the block size, and the inner
and outer pads are `0x36`/`0x5c`. -/
def hmacF (H : HashFn) (key msg : Bytes) : Bytes :=
  let k0 := if H.blockSize < key.length then H.f key else key
  let k1 := k0 ++ List.replicate (H.blockSize - k0.length) 0
  H.f (k1.map (fun b => b ^^^ 92) ++ H.f (k1.map (fun b => b ^^^ 54) ++ msg))

/-! ## Dynamic truncation and decimal formatting (`otp.Truncate`,
`otp.formatDecimal` from the vendored `creachadair/otp` package) -/

/-- `otp.Truncate` (RFC 4226 dynamic truncation).  `none` models the Go
index-out-of-range panic on a digest shorter than `offset + 4` bytes or
empty (never reached for real digests). -/
def Truncate (digest : Bytes) : Option Nat :=
  match digest.getLast? with
  | none => none
  | some last =>
      let offset := last &&& 15
      if offset + 4 ≤ digest.length then
        some ((digest.getD offset 0 &&& 127) <<< 24 |||
              digest.getD (offset + 1) 0 <<< 16 |||
              digest.getD (offset + 2) 0 <<< 8 |||
              digest.getD (offset + 3) 0)
      else none

/-- Decimal digit bytes of `n`, most significant first, accumulated into
`acc`; fuel-driven so it reduces structurally. -/
def natToDigitsAux : Nat → Nat → Bytes → Bytes
  | 0, _, acc => acc
  | fuel + 1, n, acc => if n = 0 then acc else natToDigitsAux fuel (n / 10) ((48 + n % 10) :: acc)

/-- `strconv.FormatUint(n, 10)` / `strconv.Itoa` on non-negative values.
The fuel of 64 covers every value below `10 ^ 64`, far beyond the `uint64`
domain of the Go function. -/
def formatUint (n : Nat) : Bytes := if n = 0 then [48] else natToDigitsAux 64 n []

/-- `otp.formatDecimal`.  The Go function left-pads with a slice of the
20-character constant `"00000000000000000000"`; slicing that constant
beyond its length panics, which is modelled as `none`. -/
def formatDecimal (hash : Bytes) (width : Nat) : Option Bytes :=
  match Truncate hash with
  | none => none
  | some v =>
      let s0 := formatUint v
      let padded : Option Bytes :=
        if s0.length < width then
          if width - s0.length ≤ 20 then some (List.replicate (width - s0.length) 48 ++ s0)
          else none
        else some s0
      padded.map (fun s => s.drop (s.length - width))

/-! ## `otp.Config` and HOTP -/

/-- `otp.Config`.  The `TimeStep` and `Format` fields are never set anywhere
in this repository and are omitted; `HOTP` formats with `formatDecimal`
(the `Format == nil` branch) accordingly. -/
structure Config where
  Key : Bytes
  Hash : Option HashFn := none
  Counter : Nat := 0
  Digits : Int := 0

/-- `Config.newHash`: the configured hash, defaulting to `sha1.New`. -/
def Config.newHash (c : Config) : HashFn := c.Hash.getD sha1H

/-- `Config.digits`: the effective digit count, 6 when `Digits <= 0`. -/
def Config.digits (c : Config) : Nat := if c.Digits ≤ 0 then 6 else c.Digits.toNat

/-- `Config.hmac`: HMAC of the big-endian 8-byte counter under the
configured hash and key. -/
def Config.hmac (c : Config) (counter : Nat) : Bytes :=
  hmacF c.newHash c.Key (be64 counter)

/-- `Config.HOTP`.  `none` models the panics: the formatting panic inside
`formatDecimal`, and the explicit `panic` when the code length differs from
the digit count (provably unreachable). -/
def Config.HOTP (c : Config) (counter : Nat) : Option Bytes :=
  match formatDecimal (c.hmac counter) c.digits with
  | none => none
  | some code => if code.length = c.digits then some code else none

/-! ## Base32 (Go `encoding/base32`, standard alphabet with padding) -/

/-- The decode map of the standard base32 alphabet
`"ABCDEFGHIJKLMNOPQRSTUVWXYZ234567"`; `none` is the `0xFF` rejection. -/
def b32Val (c : Nat) : Option Nat :=
  if 65 ≤ c ∧ c ≤ 90 then some (c - 65)
  else if 50 ≤ c ∧ c ≤ 55 then some (c - 50 + 26)
  else none

/-- Decode every character of a quantum through the alphabet map. -/
def b32Vals : Bytes → Option (List Nat)
  | [] => some []
  | c :: t =>
      match b32Val c, b32Vals t with
      | some v, some vs => some (v :: vs)
      | _, _ => none

/-- Assemble up to eight 5-bit values into the 40-bit quantum value, missing
positions reading as zero (Go's zeroed `dbuf`). -/
def b32Quantum (vals : List Nat) : Nat :=
  (vals ++ List.replicate (8 - vals.length) 0).foldl (fun a v => a * 32 + v) 0

/-- The first `m` big-endian bytes of a 40-bit quantum value. -/
def be40Take (m : Nat) (v : Nat) : Bytes := ((be64 v).drop 3).take m

/-- Decode the final 8-character quantum, which may carry `=` padding: the
data length before the padding must be 2, 4, 5, 7 or 8, and everything from
the first `=` on must be `=`. -/
def b32Final (q : Bytes) : Option Bytes :=
  let dataPart := q.takeWhile (fun c => c != 61)
  let dlen := dataPart.length
  if (q.drop dlen).all (fun c => c == 61) then
    if dlen = 8 ∨ dlen = 7 ∨ dlen = 5 ∨ dlen = 4 ∨ dlen = 2 then
      match b32Vals dataPart with
      | some vs => some (be40Take (5 * dlen / 8) (b32Quantum vs))
      | none => none
    else none
  else none

/-- Decode successive 8-character quanta.  `=` is accepted only in the final
quantum (in any earlier quantum at least 8 characters follow it, which Go
rejects through the decode map); a trailing partial quantum is always a
`CorruptInputError` for the padded standard encoding. -/
def b32DecodeGroups : Bytes → Option Bytes
  | c0 :: c1 :: c2 :: c3 :: c4 :: c5 :: c6 :: c7 :: rest =>
      if rest.isEmpty then b32Final [c0, c1, c2, c3, c4, c5, c6, c7]
      else
        match b32Vals [c0, c1, c2, c3, c4, c5, c6, c7], b32DecodeGroups rest with
        | some vs, some tail => some (be40Take 5 (b32Quantum vs) ++ tail)
        | _, _ => none
  | [] => some []
  | _ => none

/-- `base32.StdEncoding.DecodeString`: strip newlines, then decode quanta.
`none` models the `CorruptInputError` (whose byte offset is not tracked
here). -/
def b32DecodeString (s : Bytes) : Option Bytes :=
  b32DecodeGroups (s.filter (fun c => c != 10 && c != 13))

/-! ## Key normalization (`otp.ParseKey`) -/

/-- A byte of ASCII whitespace (the code points `unicode.IsSpace` accepts
below 0x80; all inputs constrained by the theorems are ASCII). -/
def isSpaceByte (c : Nat) : Bool :=
  c == 32 || c == 9 || c == 10 || c == 11 || c == 12 || c == 13

/-- `strings.Join(strings.Fields(s), "")`: splitting into maximal
whitespace-free fields and joining with the empty separator removes exactly
the whitespace bytes. -/
def dropSpaces (s : Bytes) : Bytes := s.filter (fun c => !isSpaceByte c)

/-- `strings.ToUpper` (ASCII; every input constrained by the theorems is
ASCII, where the Go function maps exactly the bytes `a`-`z`). -/
def toUpperB (s : Bytes) : Bytes := s.map (fun c => if 97 ≤ c ∧ c ≤ 122 then c - 32 else c)

/-- `otp.ParseKey`: normalize (drop whitespace, uppercase, pad with `=` to a
multiple of eight characters) and base32-decode. -/
def ParseKey (s : Bytes) : Option Bytes :=
  let clean := toUpperB (dropSpaces s)
  let clean :=
    if clean.length % 8 = 0 then clean
    else clean ++ List.replicate (8 - clean.length % 8) 61
  b32DecodeString clean

/-! ## Go `strings` helpers (ASCII byte-level models) -/

/-- `strings.HasPrefix`. -/
def hasPrefixB (s p : Bytes) : Bool := p.isPrefixOf s

/-- `strings.TrimPrefix`. -/
def trimPrefixB (s p : Bytes) : Bytes := if hasPrefixB s p then s.drop p.length else s

/-- `strings.Index`: position of the first occurrence of `sep`, `none` when
absent (Go returns `-1`). -/
def indexOfSub (sep : Bytes) : Bytes → Option Nat
  | [] => if sep.isEmpty then some 0 else none
  | a :: t =>
      if sep.isPrefixOf (a :: t) then some 0 else (indexOfSub sep t).map (· + 1)

/-- `strings.SplitN(s, sep, 2)` for a non-empty separator. -/
def splitN2 (s sep : Bytes) : List Bytes :=
  match indexOfSub sep s with
  | some i => [s.take i, s.drop (i + sep.length)]
  | none => [s]

/-- `strings.Split` for a non-empty separator (fuel-driven; the fuel
`s.length` suffices since every split consumes at least one byte). -/
def goSplitF (sep : Bytes) : Nat → Bytes → List Bytes
  | 0, s => [s]
  | fuel + 1, s =>
      match indexOfSub sep s with
      | some i => s.take i :: goSplitF sep fuel (s.drop (i + sep.length))
      | none => [s]

/-- `strings.Split` for a non-empty separator. -/
def goSplit (s sep : Bytes) : List Bytes := goSplitF sep s.length s

/-- `strings.TrimSpace` (ASCII; all inputs constrained by the theorems are
ASCII, where `unicode.IsSpace` accepts exactly `isSpaceByte`). -/
def trimSpaceB (s : Bytes) : Bytes :=
  ((s.dropWhile isSpaceByte).reverse.dropWhile isSpaceByte).reverse

/-- `strings.ToLower` (ASCII). -/
def toLowerB (s : Bytes) : Bytes := s.map (fun c => if 65 ≤ c ∧ c ≤ 90 then c + 32 else c)

/-- `strings.TrimRight(s, "=")`. -/
def trimRightEqB (s : Bytes) : Bytes := (s.reverse.dropWhile (fun c => c == 61)).reverse

/-- `strings.Join(parts, sep)`. -/
def joinB (sep : Bytes) : List Bytes → Bytes
  | [] => []
  | [p] => p
  | p :: rest => p ++ sep ++ joinB sep rest

/-- `strconv.ParseUint(s, 10, 64)`: all decimal digits, non-empty, value
below `2 ^ 64`; `none` is the parse error (in the range-error case Go also
returns `MaxUint64`, but every caller in this repository then discards the
result). -/
def parseUint64 (s : Bytes) : Option Nat :=
  if s.isEmpty then none
  else if s.all (fun c => 48 ≤ c && c ≤ 57) then
    let v := s.foldl (fun a c => a * 10 + (c - 48)) 0
    if v < 18446744073709551616 then some v else none
  else none

/-- Go `int(n)` conversion of a `uint64` (two's-complement wraparound into
`int64`). -/
def int64OfUint64 (n : Nat) : Int :=
  if n < 9223372036854775808 then (n : Int) else (n : Int) - 18446744073709551616

/-! ## Errors

Go reports errors as `error` values built with `errors.New`/`fmt.Errorf`.
They are modelled structurally: one constructor per construction site in
the sources, carrying the formatted payloads.  The Go format string is
recorded at each constructor. -/

/-- The error values produced by the embedded code. -/
inductive Err where
  /-- `url.EscapeError`: `"invalid URL escape %..."` (the offending input). -/
  | escapeError (s : Bytes)
  /-- otpauth: `"invalid scheme %q"`. -/
  | invalidScheme (scheme : Bytes)
  /-- otpauth: `"invalid type/label"`. -/
  | invalidTypeLabel
  /-- otpauth: `"empty issuer"`. -/
  | emptyIssuer
  /-- otpauth: `"empty account name"`. -/
  | emptyAccountName
  /-- otpauth: `"invalid label: %v"`. -/
  | invalidLabel (inner : Err)
  /-- otpauth: `"invalid value: %v"`. -/
  | invalidValue (inner : Err)
  /-- otpauth: `"invalid parameter %q"`. -/
  | invalidParameter (name : Bytes)
  /-- otpauth: `"invalid integer value %q"`. -/
  | invalidIntegerValue (value : Bytes)
  /-- `base32.CorruptInputError` from `otp.ParseKey` (Go also reports a byte
  offset, which is not tracked). -/
  | base32Corrupt
  /-- gauth: `"unsupported type: %q"`. -/
  | unsupportedType (name : Bytes)
  /-- gauth: `"unsupported algorithm: %q"`. -/
  | unsupportedAlgorithm (name : Bytes)
  /-- gauth: `"invalid secret: %v"`. -/
  | invalidSecret (inner : Err)
  /-- gauth: `"encrypted data too short"`. -/
  | encryptedTooShort
  /-- gauth: `"creating cipher: %v"` (unreachable: the derived key is always
  16 bytes). -/
  | creatingCipher
  /-- gauth: `"invalid decryption key"`. -/
  | invalidDecryptionKey
  /-- gauth: `"invalid block padding"`. -/
  | invalidBlockPadding
  /-- gauth: `"empty data"`. -/
  | emptyData
  /-- gauth: `"reading passphrase: %v"`. -/
  | readingPassphrase (inner : Err)
  /-- gauth: `"line %d: invalid otpauth URL: %v"`. -/
  | invalidURLLine (lineNum : Nat) (inner : Err)
  /-- gauth: `"line %d: invalid format (want name:secret)"`. -/
  | invalidFormatLine (lineNum : Nat)
  /-- An abstract failure returned by a caller-supplied `getPass` callback. -/
  | passError (code : Nat)
deriving DecidableEq, Repr

/-- Decidable equality for `Except` results. -/
instance {e a : Type} [DecidableEq e] [DecidableEq a] : DecidableEq (Except e a) := fun x y =>
  match x, y with
  | .ok v, .ok w =>
      if h : v = w then isTrue (by rw [h]) else isFalse (fun hh => by cases hh; exact h rfl)
  | .error v, .error w =>
      if h : v = w then isTrue (by rw [h]) else isFalse (fun hh => by cases hh; exact h rfl)
  | .ok _, .error _ => isFalse (fun hh => by cases hh)
  | .error _, .ok _ => isFalse (fun hh => by cases hh)

/-! ## Percent escaping (Go `net/url`, path-segment mode) -/

/-- A hexadecimal digit byte (`ishex`). -/
def isHexByte (c : Nat) : Bool :=
  (48 ≤ c && c ≤ 57) || (97 ≤ c && c ≤ 102) || (65 ≤ c && c ≤ 70)

/-- Value of a hexadecimal digit byte (`unhex`). -/
def unhexByte (c : Nat) : Nat :=
  if 48 ≤ c ∧ c ≤ 57 then c - 48
  else if 97 ≤ c ∧ c ≤ 102 then c - 97 + 10
  else if 65 ≤ c ∧ c ≤ 70 then c - 65 + 10
  else 0

/-- Upper-case hexadecimal digit byte of a value below 16. -/
def hexUpper (n : Nat) : Nat := if n < 10 then 48 + n else 55 + n

/-- `shouldEscape(c, encodePathSegment)`: unreserved bytes (alphanumerics
and `-
 _ . ~`) and the reserved bytes `$ & + : = ? @` pass through; RFC 3986
saves `/ ; ,` (and everything else) for escaping. -/
def shouldEscapePS (c : Nat) : Bool :=
  if (97 ≤ c && c ≤ 122) || (65 ≤ c && c ≤ 90) || (48 ≤ c && c ≤ 57) then false
  else if c == 45 || c == 95 || c == 46 || c == 126 then false
  else if c == 36 || c == 38 || c == 43 || c == 58 || c == 61 || c == 63 || c == 64 then false
  else true

/-- `url.PathEscape`. -/
def pathEscape (s : Bytes) : Bytes :=
  s.flatMap (fun c => if shouldEscapePS c then [37, hexUpper (c / 16), hexUpper (c % 16)] else [c])

/-- `url.PathUnescape`: a `%` must be followed by two hexadecimal digits;
`none` is the `EscapeError`. -/
def pathUnescape : Bytes → Option Bytes
  | [] => some []
  | c :: t =>
      if c = 37 then
        match t with
        | a :: b :: t2 =>
            if isHexByte a && isHexByte b then
              (pathUnescape t2).map (fun r => (unhexByte a * 16 + unhexByte b) :: r)
            else none
        | _ => none
      else (pathUnescape t).map (fun r => c :: r)

/-! ## The otpauth URL model (vendored `creachadair/otp/otpauth`) -/

/-- `otpauth.URL`.  The Go field `Type` is called `Typ` here (`Type` is a
Lean keyword); all other fields keep their source names. -/
structure URL where
  Typ : Bytes := []
  Issuer : Bytes := []
  Account : Bytes := []
  RawSecret : Bytes := []
  Algorithm : Bytes := []
  Digits : Int := 0
  Period : Int := 0
  Counter : Nat := 0
deriving DecidableEq, Repr

/-- `URL.labelString`. -/
def URL.labelString (u : URL) : Bytes :=
  if u.Issuer ≠ [] then pathEscape u.Issuer ++ [58] ++ pathEscape u.Account
  else pathEscape u.Account

/-- The query parameters emitted by `URL.String`: only non-default ones, in
the source's order (algorithm, counter, digits, issuer, period, secret). -/
def urlParams (u : URL) : List Bytes :=
  let typ := toLowerB u.Typ
  let params : List Bytes := []
  let params :=
    if toUpperB u.Algorithm ≠ [] ∧ toUpperB u.Algorithm ≠ bytesOf "SHA1" then
      params ++ [bytesOf "algorithm=" ++ pathEscape (toUpperB u.Algorithm)]
    else params
  let params :=
    if 0 < u.Counter ∨ typ = bytesOf "hotp" then
      params ++ [bytesOf "counter=" ++ formatUint u.Counter]
    else params
  let params :=
    if 0 < u.Digits ∧ u.Digits ≠ 6 then
      params ++ [bytesOf "digits=" ++ formatUint u.Digits.toNat]
    else params
  let params :=
    if u.Issuer ≠ [] then params ++ [bytesOf "issuer=" ++ pathEscape u.Issuer]
    else params
  let params :=
    if 0 < u.Period ∧ u.Period ≠ 30 then
      params ++ [bytesOf "period=" ++ formatUint u.Period.toNat]
    else params
  let params :=
    if u.RawSecret ≠ [] then
      params ++ [bytesOf "secret=" ++ pathEscape (toUpperB (dropSpaces (trimRightEqB u.RawSecret)))]
    else params
  params

/-- `URL.String`: scheme, type, label and the `?`-joined parameters. -/
def URL.String (u : URL) : Bytes :=
  bytesOf "otpauth://" ++ toLowerB u.Typ ++ [47] ++ u.labelString ++
    (if urlParams u ≠ [] then [63] ++ joinB (bytesOf "&") (urlParams u) else [])

/-- `URL.parseLabel`: percent-decode the label; an optional `issuer:` prefix
(with non-empty issuer) precedes the account, which must be non-empty after
trimming. -/
def URL.parseLabel (u : URL) (s : Bytes) : Except Err URL :=
  match pathUnescape s with
  | none => .error (.escapeError s)
  | some account0 =>
      let step : Except Err (URL × Bytes) :=
        match indexOfSub [58] account0 with
        | some i =>
            let issuer := trimSpaceB (account0.take i)
            if issuer = [] then .error .emptyIssuer
            else .ok ({ u with Issuer := issuer }, account0.drop (i + 1))
        | none => .ok (u, account0)
      match step with
      | .error e => .error e
      | .ok (u1, account) =>
          let acct := trimSpaceB account
          if acct = [] then .error .emptyAccountName
          else .ok { u1 with Account := acct }

/-- One URL query parameter (`ParseURL` loop body): `key=value` split on the
first `=`; `algorithm`/`issuer`/`secret` take the percent-decoded string,
all other recognized names take an unsigned integer, unknown names are
rejected (before the integer parse error, as in the source). -/
def parseParam (out : URL) (param : Bytes) : Except Err URL :=
  let ps := splitN2 param (bytesOf "=")
  let key := ps.getD 0 []
  let rawVal := ps.getD 1 []
  match pathUnescape rawVal with
  | none => .error (.invalidValue (.escapeError rawVal))
  | some value =>
      if key = bytesOf "algorithm" then .ok { out with Algorithm := toUpperB value }
      else if key = bytesOf "issuer" then .ok { out with Issuer := value }
      else if key = bytesOf "secret" then .ok { out with RawSecret := value }
      else if key = bytesOf "counter" ∨ key = bytesOf "digits" ∨ key = bytesOf "period" then
        match parseUint64 value with
        | none => .error (.invalidIntegerValue value)
        | some n =>
            if key = bytesOf "counter" then .ok { out with Counter := n }
            else if key = bytesOf "digits" then .ok { out with Digits := int64OfUint64 n }
            else .ok { out with Period := int64OfUint64 n }
      else .error (.invalidParameter key)

/-- Fold `parseParam` over the `&`-separated parameters. -/
def parseParams : List Bytes → URL → Except Err URL
  | [], out => .ok out
  | p :: rest, out =>
      match parseParam out p with
      | .error e => .error e
      | .ok out2 => parseParams rest out2

/-- `otpauth.ParseURL`. -/
def ParseURL (s0 : Bytes) : Except Err URL :=
  let step1 : Except Err Bytes :=
    match splitN2 s0 (bytesOf "://") with
    | [scheme, rest] =>
        if scheme = bytesOf "otpauth" then .ok rest else .error (.invalidScheme scheme)
    | _ => .ok s0
  match step1 with
  | .error e => .error e
  | .ok s =>
      let tp : Bytes × Bytes :=
        match splitN2 s (bytesOf "?") with
        | [a, b] => (a, b)
        | _ => (s, [])
      match splitN2 (trimPrefixB tp.1 (bytesOf "//")) (bytesOf "/") with
      | [typ, label] =>
          if typ = [] ∨ label = [] then .error .invalidTypeLabel
          else
            let out : URL :=
              { Typ := toLowerB typ, Algorithm := bytesOf "SHA1", Digits := 6, Period := 30 }
            match out.parseLabel label with
            | .error e => .error (.invalidLabel e)
            | .ok out =>
                if tp.2 = [] then .ok out
                else parseParams (goSplit tp.2 (bytesOf "&")) out
      | _ => .error .invalidTypeLabel

/-! ## The gauth package (HOTP windowing, config crypto, config parser) -/

/-- `pickAlgorithm`: the empty name and `SHA1` select SHA-1, `SHA256` and
`SHA512` their hashes, anything else is rejected. -/
def pickAlgorithm (name : Bytes) : Except Err HashFn :=
  if name = [] ∨ name = bytesOf "SHA1" then .ok sha1H
  else if name = bytesOf "SHA256" then .ok sha256H
  else if name = bytesOf "SHA512" then .ok sha512H
  else .error (.unsupportedAlgorithm name)

/-- `CodesAtTimeStep`: previous, current and next HOTP codes of a TOTP
account at a `uint64` time step (the previous/next counters wrap around
modulo `2 ^ 64`).  The outer `none` models a panic inside `Config.HOTP`. -/
def CodesAtTimeStep (u : URL) (timeStep : Nat) : Option (Except Err (Bytes × Bytes × Bytes)) :=
  if u.Typ ≠ bytesOf "totp" then some (.error (.unsupportedType u.Typ))
  else
    match pickAlgorithm u.Algorithm with
    | .error e => some (.error e)
    | .ok alg =>
        match ParseKey u.RawSecret with
        | none => some (.error (.invalidSecret .base32Corrupt))
        | some key =>
            let cfg : Config := { Key := key, Hash := some alg, Digits := u.Digits }
            match cfg.HOTP (u64 (timeStep + 18446744073709551615)), cfg.HOTP timeStep,
                  cfg.HOTP (u64 (timeStep + 1)) with
            | some prev, some curr, some next => some (.ok (prev, curr, next))
            | _, _, _ => none

/-- An abstract 16-byte block cipher: `crypto/aes` is outside this
repository, so the claims about the structure around it are stated for an
arbitrary keyed block cipher with forward and inverse directions. -/
structure BlockCipher where
  encB : Bytes → Bytes → Bytes
  decB : Bytes → Bytes → Bytes

/-- Byte-wise XOR of two equal-length blocks (`xorBytes` inside Go's CBC). -/
def zipXor (a b : Bytes) : Bytes := List.zipWith (fun x y => x ^^^ y) a b

/-- CBC decryption blocks: each plaintext block is the decryption of a
ciphertext block XORed with the previous ciphertext block (`prev` starts at
the IV). -/
def cbcDecryptF (C : BlockCipher) (key : Bytes) : Nat → Bytes → Bytes → Bytes
  | 0, _, _ => []
  | _, _, [] => []
  | fuel + 1, prev, ct =>
      zipXor (C.decB key (ct.take 16)) prev ++ cbcDecryptF C key fuel (ct.take 16) (ct.drop 16)

/-- `cipher.NewCBCDecrypter(block, iv).CryptBlocks`: `none` models the panic
on input that is not a multiple of the block size. -/
def cbcDecrypt (C : BlockCipher) (key iv data : Bytes) : Option Bytes :=
  if data.length % 16 = 0 then some (cbcDecryptF C key data.length iv data) else none

/-- CBC encryption blocks. -/
def cbcEncryptF (C : BlockCipher) (key : Bytes) : Nat → Bytes → Bytes → Bytes
  | 0, _, _ => []
  | _, _, [] => []
  | fuel + 1, prev, pt =>
      let blk := C.encB key (zipXor (pt.take 16) prev)
      blk ++ cbcEncryptF C key fuel blk (pt.drop 16)

/-- `cipher.NewCBCEncrypter(block, iv).CryptBlocks`. -/
def cbcEncrypt (C : BlockCipher) (key iv data : Bytes) : Option Bytes :=
  if data.length % 16 = 0 then some (cbcEncryptF C key data.length iv data) else none

/-- `deriveKeyAndIV`: one SHA-256 of password+salt; the first 16 bytes key
the cipher, the last 16 are the IV. -/
def deriveKeyAndIV (passwd salt : Bytes) : Bytes × Bytes :=
  let sum := sha256Bytes (passwd ++ salt)
  (sum.take 16, sum.drop 16)

/-- `removePadding`: strict PKCS#7 validation. -/
def removePadding (data : Bytes) : Except Err Bytes :=
  match data.getLast? with
  | none => .error .emptyData
  | some pad =>
      if pad < 1 ∨ 16 < pad ∨ data.length < pad then .error .invalidDecryptionKey
      else if (data.drop (data.length - pad)).all (fun c => c == pad) then
        .ok (data.take (data.length - pad))
      else .error .invalidBlockPadding

/-- `decryptConfig`, over the abstract cipher `C`.  The outer `none` models
the `CryptBlocks` panic on a ciphertext that is not block-aligned. -/
def decryptConfig (C : BlockCipher) (data passwd : Bytes) : Option (Except Err Bytes) :=
  if data.length < 16 then some (.error .encryptedTooShort)
  else
    let salt := (data.drop 8).take 8
    let rest := data.drop 16
    let kiv := deriveKeyAndIV passwd salt
    if kiv.1.length = 16 ∨ kiv.1.length = 24 ∨ kiv.1.length = 32 then
      match cbcDecrypt C kiv.1 kiv.2 rest with
      | none => none
      | some pt => some (removePadding pt)
    else some (.error .creatingCipher)

/-- `encryptConfig`, over the abstract cipher `C`: PKCS#7-pad (always one
to sixteen bytes), CBC-encrypt, and prepend `"Salted__"` and the salt. -/
def encryptConfig (C : BlockCipher) (salt passwd config : Bytes) : Option (Except Err Bytes) :=
  let sum := sha256Bytes (passwd ++ salt)
  let key := sum.take 16
  let iv := sum.drop 16
  if key.length = 16 ∨ key.length = 24 ∨ key.length = 32 then
    let padLength := 16 - config.length % 16
    let padded := config ++ List.replicate padLength padLength
    match cbcEncrypt C key iv padded with
    | none => none
    | some ct => some (.ok (bytesOf "Salted__" ++ salt ++ ct))
  else some (.error .creatingCipher)

/-- `ReadConfigFile` after the file read, on the file's contents: the data
and whether it begins with the `"Salted__"` marker. -/
def readConfigData (data : Bytes) : Bytes × Bool :=
  (data, hasPrefixB data (bytesOf "Salted__"))

/-- `LoadConfigFile` on the file's contents.  The `getPass` callback is
modelled as a stream of results indexed by call number; the first component
of the result counts the calls made.  The inner `none` models a decryption
panic. -/
def loadConfigData (C : BlockCipher) (data : Bytes) (getPass : Nat → Except Err Bytes) :
    Nat × Option (Except Err Bytes) :=
  if (readConfigData data).2 = false then (0, some (.ok (readConfigData data).1))
  else
    match getPass 0 with
    | .error e => (1, some (.error (.readingPassphrase e)))
    | .ok passwd => (1, decryptConfig C data passwd)

/-- `parseConfigLine`: an `otpauth://` line goes through `ParseURL` (errors
wrapped with the line number); anything else must be `name:secret` split on
the first colon, the two parts trimmed. -/
def parseConfigLine (line : Bytes) (lineNum : Nat) : Except Err URL :=
  if hasPrefixB line (bytesOf "otpauth://") then
    match ParseURL line with
    | .error e => .error (.invalidURLLine lineNum e)
    | .ok u => .ok u
  else
    match splitN2 line (bytesOf ":") with
    | [name, secret] =>
        .ok { Typ := bytesOf "totp", Account := trimSpaceB name, RawSecret := trimSpaceB secret }
    | _ => .error (.invalidFormatLine lineNum)

/-- The `ParseConfig` loop over the split lines; `i` is the 0-based index of
the first line in `lines`. -/
def parseConfigLines : List Bytes → Nat → Except Err (List URL)
  | [], _ => .ok []
  | line :: rest, i =>
      let trim := trimSpaceB line
      if trim = [] then parseConfigLines rest (i + 1)
      else
        match parseConfigLine trim (i + 1) with
        | .error e => .error e
        | .ok u =>
            match parseConfigLines rest (i + 1) with
            | .error e => .error e
            | .ok us => .ok (u :: us)

/-- `ParseConfig`: split on newlines, skip blank lines, parse each remaining
line with its 1-based line number. -/
def ParseConfig (data : Bytes) : Except Err (List URL) :=
  parseConfigLines (goSplit data [10]) 0

/-! ## Supporting lemmas -/

/-- A SHA-256 digest has 32 bytes. -/
theorem sha256Bytes_length (msg : Bytes) : (sha256Bytes msg).length = 32 := by
  simp [sha256Bytes, sha256Out, be32]

/-- An identity "cipher", used to instantiate theorems that hold for every
block cipher. -/
def idCipher : BlockCipher := ⟨fun _ b => b, fun _ b => b⟩

end Gauth

namespace Gauth

/-! ## Claims -/

/-- C1: the HOTP known-answer fixture holds bit-exactly: with the key
`base32decode("ABCDEFGH")`, counter 51790421, SHA-1 and 6 digits, the HOTP
code is exactly the string `"305441"`. -/
theorem c1_hotp_known_answer :
    (b32DecodeString (bytesOf "ABCDEFGH")).map
        (fun key => Config.HOTP { Key := key, Hash := some sha1H, Digits := 6 } 51790421) =
      some (some (bytesOf "305441")) := by decide

/-- C4: `removePadding` validates PKCS#7 padding strictly.  With `p` the
last byte: the result is `ok` with exactly the last `p` bytes stripped
precisely when `1 ≤ p ≤ 16`, `p ≤ len` and the last `p` bytes all equal
`p`; any violation yields one of the two `InvalidPassword`-class errors;
in particular a final byte equal to `0` or exceeding the block size is
always rejected. -/
theorem c4_padding_strict (data : Bytes) (p : Nat) (hlast : data.getLast? = some p) :
    (removePadding data = .ok (data.take (data.length - p)) ↔
        1 ≤ p ∧ p ≤ 16 ∧ p ≤ data.length ∧ ∀ c ∈ data.drop (data.length - p), c = p)
  ∧ (∀ out, removePadding data = .ok out → out = data.take (data.length - p))
  ∧ (¬ (1 ≤ p ∧ p ≤ 16 ∧ p ≤ data.length ∧ ∀ c ∈ data.drop (data.length - p), c = p) →
        removePadding data = .error .invalidDecryptionKey ∨
        removePadding data = .error .invalidBlockPadding)
  ∧ ((p = 0 ∨ 16 < p) → removePadding data = .error .invalidDecryptionKey) := by
  have hrm : removePadding data =
      (if p < 1 ∨ 16 < p ∨ data.length < p then .error .invalidDecryptionKey
       else if (data.drop (data.length - p)).all (fun c => c == p) then
         .ok (data.take (data.length - p))
       else .error .invalidBlockPadding) := by
    unfold removePadding
    rw [hlast]
  by_cases h1 : p < 1 ∨ 16 < p ∨ data.length < p
  · rw [if_pos h1] at hrm
    refine ⟨⟨fun h => ?_, fun hc => ?_⟩, fun out h => ?_, fun _ => Or.inl hrm, fun _ => hrm⟩
    · rw [hrm] at h; cases h
    · obtain ⟨a, b, c, _⟩ := hc
      rcases h1 with h | h | h <;> omega
    · rw [hrm] at h; cases h
  · push_neg at h1
    rw [if_neg (by rcases h1 with ⟨a, b, c⟩; omega)] at hrm
    by_cases h2 : (data.drop (data.length - p)).all (fun c => c == p)
    · rw [if_pos h2] at hrm
      have hall : ∀ c ∈ data.drop (data.length - p), c = p := by
        intro c hc
        have := List.all_eq_true.mp h2 c hc
        simpa using this
      refine ⟨⟨fun _ => ⟨h1.1, h1.2.1, h1.2.2, hall⟩, fun _ => hrm⟩, fun out h => ?_,
        fun hno => absurd ⟨h1.1, h1.2.1, h1.2.2, hall⟩ hno, fun h => ?_⟩
      · rw [hrm] at h; cases h; rfl
      · rcases h with h | h <;> [omega; omega]
    · rw [if_neg h2] at hrm
      refine ⟨⟨fun h => ?_, fun hc => ?_⟩, fun out h => ?_, fun _ => Or.inr hrm, fun h => ?_⟩
      · rw [hrm] at h; cases h
      · obtain ⟨_, _, _, hall⟩ := hc
        exact absurd (List.all_eq_true.mpr (fun c hc => by simp [hall c hc])) h2
      · rw [hrm] at h; cases h
      · rcases h with h | h <;> [omega; omega]

/-- Witness for C4 at concrete inputs: `[65, 2, 2]` has valid padding `2`
and strips to `[65]`; `[65, 0]` (final byte `0`) is rejected. -/
theorem c4_padding_strict_witness :
    removePadding [65, 2, 2] = .ok [65] ∧
    removePadding [65, 0] = .error .invalidDecryptionKey := by
  constructor
  · exact (c4_padding_strict [65, 2, 2] 2 (by decide)).1.2 (by decide)
  · exact (c4_padding_strict [65, 0] 0 (by decide)).2.2.2 (Or.inl rfl)

/-- C10: on contents that do not begin with the 8-byte `"Salted__"` marker,
`LoadConfigFile` returns the bytes unchanged with the `getPass` callback
never invoked (zero calls, result independent of the callback); when the
marker is present the callback is consulted exactly once (hence at most
once). -/
theorem c10_load_plaintext_no_pass (C : BlockCipher) (data : Bytes)
    (g : Nat → Except Err Bytes) :
    (hasPrefixB data (bytesOf "Salted__") = false →
        loadConfigData C data g = (0, some (.ok data)))
  ∧ (hasPrefixB data (bytesOf "Salted__") = true → (loadConfigData C data g).1 = 1)
  ∧ (hasPrefixB data (bytesOf "Salted__") = false →
        ∀ g', loadConfigData C data g = loadConfigData C data g') := by
  refine ⟨?_, ?_, ?_⟩
  · intro h
    simp [loadConfigData, readConfigData, h]
  · intro h
    simp only [loadConfigData, readConfigData, h]
    match g 0 with
    | .error e => rfl
    | .ok passwd => rfl
  · intro h g'
    simp [loadConfigData, readConfigData, h]

/-- Witness for C10: a plaintext config is returned unchanged with zero
`getPass` calls; a marker-prefixed config consults it once. -/
theorem c10_load_plaintext_no_pass_witness :
    loadConfigData idCipher (bytesOf "a:b") (fun _ => .ok []) = (0, some (.ok (bytesOf "a:b"))) ∧
    (loadConfigData idCipher (bytesOf "Salted__XXXXXXXX") (fun _ => .ok [])).1 = 1 := by
  constructor
  · exact (c10_load_plaintext_no_pass idCipher (bytesOf "a:b") (fun _ => .ok [])).1 (by decide)
  · exact (c10_load_plaintext_no_pass idCipher (bytesOf "Salted__XXXXXXXX")
      (fun _ => .ok [])).2.1 (by decide)

/-- C3: on marker-prefixed input of at least 16 bytes, `decryptConfig`
takes bytes `[8:16]` as the salt and `[16:]` as the ciphertext, derives the
32-byte SHA-256 of password and salt in a single hash application, keys the
cipher with its first 16 bytes, uses its last 16 bytes as the CBC IV, and
CBC-decrypts before padding removal. -/
theorem c3_decrypt_structure (C : BlockCipher) (data passwd : Bytes)
    (hpre : hasPrefixB data (bytesOf "Salted__") = true) (hlen : 16 ≤ data.length) :
    (sha256Bytes (passwd ++ (data.drop 8).take 8)).length = 32 ∧
    decryptConfig C data passwd =
      (cbcDecrypt C ((sha256Bytes (passwd ++ (data.drop 8).take 8)).take 16)
          ((sha256Bytes (passwd ++ (data.drop 8).take 8)).drop 16)
          (data.drop 16)).map removePadding := by
  refine ⟨sha256Bytes_length _, ?_⟩
  simp only [decryptConfig, deriveKeyAndIV]
  rw [if_neg (by omega)]
  rw [if_pos (Or.inl (by rw [List.length_take, sha256Bytes_length]; decide))]
  cases cbcDecrypt C ((sha256Bytes (passwd ++ (data.drop 8).take 8)).take 16)
      ((sha256Bytes (passwd ++ (data.drop 8).take 8)).drop 16) (data.drop 16) <;> rfl

/-- Witness for C3 on a concrete 32-byte encrypted input under the identity
cipher. -/
theorem c3_decrypt_structure_witness :
    (sha256Bytes (bytesOf "x" ++ ((bytesOf "Salted__ABCDEFGH0123456789abcdef").drop 8).take 8)).length = 32 ∧
    decryptConfig idCipher (bytesOf "Salted__ABCDEFGH0123456789abcdef") (bytesOf "x") =
      (cbcDecrypt idCipher
          ((sha256Bytes (bytesOf "x" ++ ((bytesOf "Salted__ABCDEFGH0123456789abcdef").drop 8).take 8)).take 16)
          ((sha256Bytes (bytesOf "x" ++ ((bytesOf "Salted__ABCDEFGH0123456789abcdef").drop 8).take 8)).drop 16)
          ((bytesOf "Salted__ABCDEFGH0123456789abcdef").drop 16)).map removePadding :=
  c3_decrypt_structure idCipher (bytesOf "Salted__ABCDEFGH0123456789abcdef") (bytesOf "x")
    (by decide) (by decide)

end Gauth

namespace Gauth

/-! ## CBC round-trip lemmas (for C5) -/

/-- Unfolding of one CBC encryption step on non-empty input. -/
theorem cbcEncryptF_cons (C : BlockCipher) (key : Bytes) (fuel : Nat) (prev pt : Bytes)
    (h : pt ≠ []) :
    cbcEncryptF C key (fuel + 1) prev pt =
      C.encB key (zipXor (pt.take 16) prev) ++
        cbcEncryptF C key fuel (C.encB key (zipXor (pt.take 16) prev)) (pt.drop 16) := by
  match pt, h with
  | a :: t, _ => simp [cbcEncryptF]

/-- Unfolding of one CBC decryption step on non-empty input. -/
theorem cbcDecryptF_cons (C : BlockCipher) (key : Bytes) (fuel : Nat) (prev ct : Bytes)
    (h : ct ≠ []) :
    cbcDecryptF C key (fuel + 1) prev ct =
      zipXor (C.decB key (ct.take 16)) prev ++ cbcDecryptF C key fuel (ct.take 16) (ct.drop 16) := by
  match ct, h with
  | a :: t, _ => simp [cbcDecryptF]

/-- XOR-ing twice with the same equal-length mask is the identity. -/
theorem zipXor_cancel : ∀ (a b : Bytes), a.length = b.length → zipXor (zipXor a b) b = a
  | [], [], _ => rfl
  | x :: a, y :: b, h => by
      simp only [zipXor, List.zipWith_cons_cons, Nat.xor_cancel_right, List.cons.injEq,
        true_and]
      exact zipXor_cancel a b (by simpa using h)

/-- CBC encryption preserves the length of block-aligned input when the
underlying cipher is length-preserving. -/
theorem cbcEncryptF_length (C : BlockCipher) (key : Bytes)
    (hlen : ∀ k b, (C.encB k b).length = b.length) :
    ∀ m fuel prev pt, pt.length = 16 * m → m ≤ fuel → prev.length = 16 →
      (cbcEncryptF C key fuel prev pt).length = pt.length := by
  intro m
  induction m with
  | zero =>
      intro fuel prev pt hpt _ _
      have hnil : pt = [] := List.length_eq_zero.mp (by omega)
      subst hnil
      cases fuel <;> simp [cbcEncryptF]
  | succ n ih =>
      intro fuel prev pt hpt hfuel hprev
      match fuel with
      | fuel + 1 =>
          have hne : pt ≠ [] := by
            intro h
            rw [h] at hpt
            simp at hpt
          have htake : (pt.take 16).length = 16 := by
            rw [List.length_take]
            exact Nat.min_eq_left (by omega)
          have hblk : (C.encB key (zipXor (pt.take 16) prev)).length = 16 := by
            rw [hlen, zipXor, List.length_zipWith, htake, hprev]
            decide
          have hdrop : (pt.drop 16).length = 16 * n := by
            rw [List.length_drop]; omega
          rw [cbcEncryptF_cons C key fuel prev pt hne, List.length_append, hblk,
            ih fuel _ _ hdrop (by omega) hblk]
          rw [List.length_drop]
          omega

/-- CBC decryption inverts CBC encryption on block-aligned input for any
cipher whose decryption direction inverts its encryption direction. -/
theorem cbc_roundtrip (C : BlockCipher) (key : Bytes)
    (hinv : ∀ k b, C.decB k (C.encB k b) = b)
    (hlen : ∀ k b, (C.encB k b).length = b.length) :
    ∀ m fuel1 fuel2 prev pt, pt.length = 16 * m → m ≤ fuel1 → m ≤ fuel2 → prev.length = 16 →
      cbcDecryptF C key fuel2 prev (cbcEncryptF C key fuel1 prev pt) = pt := by
  intro m
  induction m with
  | zero =>
      intro fuel1 fuel2 prev pt hpt _ _ _
      have hnil : pt = [] := List.length_eq_zero.mp (by omega)
      subst hnil
      cases fuel1 <;> cases fuel2 <;> simp [cbcEncryptF, cbcDecryptF]
  | succ n ih =>
      intro fuel1 fuel2 prev pt hpt hf1 hf2 hprev
      match fuel1, fuel2 with
      | fuel1 + 1, fuel2 + 1 =>
          have hne : pt ≠ [] := by
            intro h
            rw [h] at hpt
            simp at hpt
          have htake : (pt.take 16).length = 16 := by
            rw [List.length_take]
            exact Nat.min_eq_left (by omega)
          have hblk : (C.encB key (zipXor (pt.take 16) prev)).length = 16 := by
            rw [hlen, zipXor, List.length_zipWith, htake, hprev]
            decide
          have hdrop : (pt.drop 16).length = 16 * n := by
            rw [List.length_drop]; omega
          rw [cbcEncryptF_cons C key fuel1 prev pt hne]
          have hctne :
              C.encB key (zipXor (pt.take 16) prev) ++
                cbcEncryptF C key fuel1 (C.encB key (zipXor (pt.take 16) prev)) (pt.drop 16) ≠
                [] := by
            intro h
            have := congrArg List.length h
            rw [List.length_append, hblk] at this
            simp at this
          rw [cbcDecryptF_cons C key fuel2 prev _ hctne,
            List.take_left' hblk, List.drop_left' hblk, hinv,
            zipXor_cancel _ _ (by rw [htake, hprev]),
            ih fuel1 fuel2 _ _ hdrop (by omega) (by omega) hblk,
            List.take_append_drop]

end Gauth

namespace Gauth

/-- Valid PKCS#7 padding appended by `encryptConfig` is stripped exactly by
`removePadding`. -/
theorem removePadding_padded (P : Bytes) (k : Nat) (h1 : 1 ≤ k) (h16 : k ≤ 16) :
    removePadding (P ++ List.replicate k k) = .ok P := by
  have hlast : (P ++ List.replicate k k).getLast? = some k := by
    match k, h1 with
    | j + 1, _ => rw [List.replicate_succ', ← List.append_assoc, List.getLast?_concat]
  have hL : (P ++ List.replicate k k).length = P.length + k := by simp
  have hsub : (P ++ List.replicate k k).length - k = P.length := by omega
  have hrm : removePadding (P ++ List.replicate k k) =
      (if k < 1 ∨ 16 < k ∨ (P ++ List.replicate k k).length < k then
         Except.error Err.invalidDecryptionKey
       else if ((P ++ List.replicate k k).drop ((P ++ List.replicate k k).length - k)).all
           (fun c => c == k) then
         Except.ok ((P ++ List.replicate k k).take ((P ++ List.replicate k k).length - k))
       else Except.error Err.invalidBlockPadding) := by
    unfold removePadding
    rw [hlast]
  rw [hrm, if_neg (by omega), hsub, List.drop_left, List.take_left,
    if_pos (by simp [List.all_eq_true, List.mem_replicate])]

/-- C5: encryption and decryption are inverse.  For every plaintext `P`,
password `W` and 8-byte salt, and every length-preserving block cipher
whose decryption inverts its encryption (as AES does),
`decryptConfig (encryptConfig P) = P`. -/
theorem c5_encrypt_decrypt_inverse (C : BlockCipher) (P W salt : Bytes)
    (hsalt : salt.length = 8)
    (hinv : ∀ k b, C.decB k (C.encB k b) = b)
    (hlenC : ∀ k b, (C.encB k b).length = b.length) :
    ∃ enc, encryptConfig C salt W P = some (.ok enc) ∧ decryptConfig C enc W = some (.ok P) := by
  have hsumlen : (sha256Bytes (W ++ salt)).length = 32 := sha256Bytes_length _
  have hkeylen : ((sha256Bytes (W ++ salt)).take 16).length = 16 := by
    rw [List.length_take, hsumlen]
    decide
  have hivlen : ((sha256Bytes (W ++ salt)).drop 16).length = 16 := by
    rw [List.length_drop, hsumlen]
  have hplen : (P ++ List.replicate (16 - P.length % 16) (16 - P.length % 16)).length
      = P.length + (16 - P.length % 16) := by simp
  have halign :
      (P ++ List.replicate (16 - P.length % 16) (16 - P.length % 16)).length % 16 = 0 := by
    rw [hplen]
    omega
  have hm16 : (P ++ List.replicate (16 - P.length % 16) (16 - P.length % 16)).length =
      16 * ((P ++ List.replicate (16 - P.length % 16) (16 - P.length % 16)).length / 16) := by
    omega
  have hctlen :
      (cbcEncryptF C ((sha256Bytes (W ++ salt)).take 16)
          (P ++ List.replicate (16 - P.length % 16) (16 - P.length % 16)).length
          ((sha256Bytes (W ++ salt)).drop 16)
          (P ++ List.replicate (16 - P.length % 16) (16 - P.length % 16))).length =
        (P ++ List.replicate (16 - P.length % 16) (16 - P.length % 16)).length := by
    refine cbcEncryptF_length C _ hlenC _ _ _ _ hm16 ?_ hivlen
    omega
  have h8 : (bytesOf "Salted__").length = 8 := by decide
  refine ⟨bytesOf "Salted__" ++ salt ++
      cbcEncryptF C ((sha256Bytes (W ++ salt)).take 16)
        (P ++ List.replicate (16 - P.length % 16) (16 - P.length % 16)).length
        ((sha256Bytes (W ++ salt)).drop 16)
        (P ++ List.replicate (16 - P.length % 16) (16 - P.length % 16)), ?_, ?_⟩
  · have hcbc : cbcEncrypt C ((sha256Bytes (W ++ salt)).take 16)
        ((sha256Bytes (W ++ salt)).drop 16)
        (P ++ List.replicate (16 - P.length % 16) (16 - P.length % 16)) =
        some (cbcEncryptF C ((sha256Bytes (W ++ salt)).take 16)
          (P ++ List.replicate (16 - P.length % 16) (16 - P.length % 16)).length
          ((sha256Bytes (W ++ salt)).drop 16)
          (P ++ List.replicate (16 - P.length % 16) (16 - P.length % 16))) := by
      simp only [cbcEncrypt]
      rw [if_pos halign]
    simp only [encryptConfig]
    rw [if_pos (Or.inl hkeylen), hcbc]
  · have hdrop8 : ((bytesOf "Salted__" ++ salt ++
        cbcEncryptF C ((sha256Bytes (W ++ salt)).take 16)
          (P ++ List.replicate (16 - P.length % 16) (16 - P.length % 16)).length
          ((sha256Bytes (W ++ salt)).drop 16)
          (P ++ List.replicate (16 - P.length % 16) (16 - P.length % 16))).drop 8).take 8 =
        salt := by
      rw [List.append_assoc, List.drop_left' h8, List.take_left' hsalt]
    have hdrop16 : (bytesOf "Salted__" ++ salt ++
        cbcEncryptF C ((sha256Bytes (W ++ salt)).take 16)
          (P ++ List.replicate (16 - P.length % 16) (16 - P.length % 16)).length
          ((sha256Bytes (W ++ salt)).drop 16)
          (P ++ List.replicate (16 - P.length % 16) (16 - P.length % 16))).drop 16 =
        cbcEncryptF C ((sha256Bytes (W ++ salt)).take 16)
          (P ++ List.replicate (16 - P.length % 16) (16 - P.length % 16)).length
          ((sha256Bytes (W ++ salt)).drop 16)
          (P ++ List.replicate (16 - P.length % 16) (16 - P.length % 16)) := by
      refine List.drop_left' ?_
      rw [List.length_append, h8, hsalt]
    have hlentot : 16 ≤ (bytesOf "Salted__" ++ salt ++
        cbcEncryptF C ((sha256Bytes (W ++ salt)).take 16)
          (P ++ List.replicate (16 - P.length % 16) (16 - P.length % 16)).length
          ((sha256Bytes (W ++ salt)).drop 16)
          (P ++ List.replicate (16 - P.length % 16) (16 - P.length % 16))).length := by
      simp only [List.length_append, h8, hsalt]
      omega
    simp only [decryptConfig, deriveKeyAndIV]
    rw [if_neg (by omega), hdrop8, hdrop16, if_pos (Or.inl hkeylen)]
    have hcbcd : cbcDecrypt C ((sha256Bytes (W ++ salt)).take 16)
        ((sha256Bytes (W ++ salt)).drop 16)
        (cbcEncryptF C ((sha256Bytes (W ++ salt)).take 16)
          (P ++ List.replicate (16 - P.length % 16) (16 - P.length % 16)).length
          ((sha256Bytes (W ++ salt)).drop 16)
          (P ++ List.replicate (16 - P.length % 16) (16 - P.length % 16))) =
        some (P ++ List.replicate (16 - P.length % 16) (16 - P.length % 16)) := by
      simp only [cbcDecrypt]
      rw [if_pos (by rw [hctlen]; exact halign), hctlen]
      rw [cbc_roundtrip C _ hinv hlenC
        ((P ++ List.replicate (16 - P.length % 16) (16 - P.length % 16)).length / 16)
        _ _ _ _ hm16 (by omega) (by omega) hivlen]
    rw [hcbcd]
    simp only [removePadding_padded P (16 - P.length % 16) (by omega) (by omega)]

/-- Witness for C5: a concrete round trip through the identity cipher. -/
theorem c5_encrypt_decrypt_inverse_witness :
    ∃ enc, encryptConfig idCipher (bytesOf "ABCDEFGH") (bytesOf "pw") (bytesOf "x:SECRET") =
        some (.ok enc) ∧
      decryptConfig idCipher enc (bytesOf "pw") = some (.ok (bytesOf "x:SECRET")) :=
  c5_encrypt_decrypt_inverse idCipher (bytesOf "x:SECRET") (bytesOf "pw") (bytesOf "ABCDEFGH")
    (by decide) (fun _ _ => rfl) (fun _ _ => rfl)

end Gauth

namespace Gauth

/-- C7 counterexample: an account whose algorithm name is the empty string
(not one of SHA1, SHA256, SHA512) is *accepted* by `CodesAtTimeStep` — the
empty name selects SHA-1 — where the claim requires an
`UnsupportedAlgorithm` failure. -/
theorem c7_counterexample_empty_algorithm :
    CodesAtTimeStep { Typ := bytesOf "totp", RawSecret := bytesOf "AA" } 1 =
      some (.ok (bytesOf "328482", bytesOf "812658", bytesOf "073348")) := by decide

/-- C7 (amended): `CodesAtTimeStep` fails with `UnsupportedType` on
non-`totp` accounts, with `UnsupportedAlgorithm` when the algorithm name is
neither empty nor one of the three recognized names (the empty name is
accepted and selects SHA-1), with `InvalidSecret` when the key codec
rejects the secret, and otherwise returns the HOTP codes at the time steps
`T-1`, `T`, `T+1` with unsigned 64-bit wraparound. -/
theorem c7_codes_at_time_step (u : URL) (ts : Nat) (hts : ts < 18446744073709551616) :
    (u.Typ ≠ bytesOf "totp" → CodesAtTimeStep u ts = some (.error (.unsupportedType u.Typ)))
  ∧ (u.Typ = bytesOf "totp" →
      u.Algorithm ≠ [] → u.Algorithm ≠ bytesOf "SHA1" → u.Algorithm ≠ bytesOf "SHA256" →
      u.Algorithm ≠ bytesOf "SHA512" →
      CodesAtTimeStep u ts = some (.error (.unsupportedAlgorithm u.Algorithm)))
  ∧ (∀ H, u.Typ = bytesOf "totp" → pickAlgorithm u.Algorithm = .ok H →
      ParseKey u.RawSecret = none →
      CodesAtTimeStep u ts = some (.error (.invalidSecret .base32Corrupt)))
  ∧ (∀ H key prev curr next, u.Typ = bytesOf "totp" → pickAlgorithm u.Algorithm = .ok H →
      ParseKey u.RawSecret = some key →
      Config.HOTP { Key := key, Hash := some H, Digits := u.Digits }
          (u64 (ts + 18446744073709551615)) = some prev →
      Config.HOTP { Key := key, Hash := some H, Digits := u.Digits } ts = some curr →
      Config.HOTP { Key := key, Hash := some H, Digits := u.Digits } (u64 (ts + 1)) = some next →
      CodesAtTimeStep u ts = some (.ok (prev, curr, next))) := by
  refine ⟨?_, ?_, ?_, ?_⟩
  · intro h
    simp only [CodesAtTimeStep]
    rw [if_pos h]
  · intro h h1 h2 h3 h4
    have hpick : pickAlgorithm u.Algorithm = .error (.unsupportedAlgorithm u.Algorithm) := by
      unfold pickAlgorithm
      rw [if_neg (by simp [h1, h2]), if_neg h3, if_neg h4]
    simp only [CodesAtTimeStep]
    rw [if_neg (by simp [h]), hpick]
  · intro H h hpk hkey
    simp only [CodesAtTimeStep]
    rw [if_neg (by simp [h]), hpk, hkey]
  · intro H key prev curr next h hpk hkey hpr hcu hnx
    simp only [CodesAtTimeStep]
    rw [if_neg (by simp [h]), hpk, hkey]
    simp only [hpr, hcu, hnx]

/-- Witness for C7 at concrete accounts: a `hotp`-typed account, an unknown
algorithm, an undecodable secret, and a successful three-code window. -/
theorem c7_codes_at_time_step_witness :
    CodesAtTimeStep { Typ := bytesOf "hotp" } 5 =
        some (.error (.unsupportedType (bytesOf "hotp")))
  ∧ CodesAtTimeStep { Typ := bytesOf "totp", Algorithm := bytesOf "MD5" } 5 =
        some (.error (.unsupportedAlgorithm (bytesOf "MD5")))
  ∧ CodesAtTimeStep { Typ := bytesOf "totp", Algorithm := bytesOf "SHA1", RawSecret := bytesOf "blargh!" } 5 =
        some (.error (.invalidSecret .base32Corrupt))
  ∧ CodesAtTimeStep { Typ := bytesOf "totp", RawSecret := bytesOf "AA" } 1 =
        some (.ok (bytesOf "328482", bytesOf "812658", bytesOf "073348")) := by
  refine ⟨?_, ?_, ?_, ?_⟩
  · exact (c7_codes_at_time_step { Typ := bytesOf "hotp" } 5 (by decide)).1 (by decide)
  · exact (c7_codes_at_time_step { Typ := bytesOf "totp", Algorithm := bytesOf "MD5" } 5
      (by decide)).2.1 (by decide) (by decide) (by decide) (by decide) (by decide)
  · exact (c7_codes_at_time_step
      { Typ := bytesOf "totp", Algorithm := bytesOf "SHA1", RawSecret := bytesOf "blargh!" } 5
      (by decide)).2.2.1 sha1H (by decide) (by rfl) (by decide)
  · exact (c7_codes_at_time_step { Typ := bytesOf "totp", RawSecret := bytesOf "AA" } 1
      (by decide)).2.2.2 sha1H [0] (bytesOf "328482") (bytesOf "812658") (bytesOf "073348")
      (by decide) (by rfl) (by decide) (by decide) (by decide) (by decide)

end Gauth

namespace Gauth

/-- A label accepted by `URL.parseLabel` yields a non-empty account. -/
theorem parseLabel_account_ne (u0 u : URL) (s : Bytes) (h : u0.parseLabel s = .ok u) :
    u.Account ≠ [] := by
  simp only [URL.parseLabel] at h
  cases hpu : pathUnescape s with
  | none =>
      simp only [hpu] at h
      cases h
  | some account0 =>
      simp only [hpu] at h
      cases hidx : indexOfSub [58] account0 with
      | none =>
          simp only [hidx] at h
          by_cases hacct : trimSpaceB account0 = []
          · simp only [if_pos hacct] at h
            cases h
          · simp only [if_neg hacct] at h
            cases h
            simpa using hacct
      | some i =>
          simp only [hidx] at h
          by_cases hiss : trimSpaceB (account0.take i) = []
          · simp only [if_pos hiss] at h
            cases h
          · simp only [if_neg hiss] at h
            by_cases hacct : trimSpaceB (account0.drop (i + 1)) = []
            · simp only [if_pos hacct] at h
              cases h
            · simp only [if_neg hacct] at h
              cases h
              simpa using hacct

/-- `parseParam` never changes the account field. -/
theorem parseParam_account (out out2 : URL) (p : Bytes) (h : parseParam out p = .ok out2) :
    out2.Account = out.Account := by
  simp only [parseParam] at h
  cases hpu : pathUnescape ((splitN2 p (bytesOf "=")).getD 1 []) with
  | none =>
      simp only [hpu] at h
      cases h
  | some value =>
      simp only [hpu] at h
      split at h
      · cases h; rfl
      · split at h
        · cases h; rfl
        · split at h
          · cases h; rfl
          · split at h
            · split at h
              · cases h
              · split at h
                · cases h; rfl
                · split at h
                  · cases h; rfl
                  · cases h; rfl
            · cases h

/-- `parseParams` never changes the account field. -/
theorem parseParams_account : ∀ (ps : List Bytes) (out out2 : URL),
    parseParams ps out = .ok out2 → out2.Account = out.Account
  | [], out, out2, h => by cases h; rfl
  | p :: rest, out, out2, h => by
      simp only [parseParams] at h
      cases hp : parseParam out p with
      | error e =>
          simp only [hp] at h
          cases h
      | ok o2 =>
          simp only [hp] at h
          rw [parseParams_account rest o2 out2 h, parseParam_account out o2 p hp]

/-- Every URL accepted by `ParseURL` has a non-empty account. -/
theorem parseURL_account_ne (s : Bytes) (u : URL) (h : ParseURL s = .ok u) : u.Account ≠ [] := by
  simp only [ParseURL] at h
  split at h
  · cases h
  · split at h
    · split at h
      · cases h
      · split at h
        · cases h
        · rename_i out heq
          split at h
          · cases h
            exact parseLabel_account_ne _ _ _ heq
          · rw [parseParams_account _ _ _ h]
            exact parseLabel_account_ne _ _ _ heq
    · cases h

/-- C9 counterexample: the line `":A"` parses successfully into an account
record whose account field is empty — the shorthand branch trims the part
before the colon without requiring it to be non-empty. -/
theorem c9_counterexample_empty_account :
    ParseConfig (bytesOf ":A") = .ok [⟨bytesOf "totp", [], [], [65], [], 0, 0, 0⟩] ∧
    (⟨bytesOf "totp", [], [], [65], [], 0, 0, 0⟩ : URL).Account = [] := by
  constructor
  · decide
  · rfl

/-- C9 (amended): an account parsed from an `otpauth://` line always has a
non-empty account field; an account parsed from a `name:secret` line has
account equal to the trimmed name part, which is empty exactly when that
part is whitespace-only. -/
theorem c9_account_nonempty (line : Bytes) (n : Nat) (u : URL)
    (h : parseConfigLine line n = .ok u) :
    (hasPrefixB line (bytesOf "otpauth://") = true → u.Account ≠ [])
  ∧ (hasPrefixB line (bytesOf "otpauth://") = false →
      u.Account = trimSpaceB ((splitN2 line (bytesOf ":")).getD 0 [])) := by
  constructor
  · intro hp
    unfold parseConfigLine at h
    rw [if_pos hp] at h
    cases hu : ParseURL line with
    | error e =>
        rw [hu] at h
        cases h
    | ok u2 =>
        rw [hu] at h
        cases h
        exact parseURL_account_ne _ _ hu
  · intro hp
    unfold parseConfigLine at h
    rw [if_neg (by simp [hp])] at h
    cases hsp : splitN2 line (bytesOf ":") with
    | nil =>
        rw [hsp] at h
        cases h
    | cons a t =>
        cases t with
        | nil =>
            rw [hsp] at h
            cases h
        | cons b t2 =>
            cases t2 with
            | nil =>
                rw [hsp] at h
                cases h
                rfl
            | cons c t3 =>
                rw [hsp] at h
                cases h

/-- Witness for C9 at concrete lines: a URL-form line with a non-empty
account, and a shorthand line whose account is the trimmed name. -/
theorem c9_account_nonempty_witness :
    ((⟨bytesOf "totp", [], bytesOf "alice", bytesOf "ABCD", bytesOf "SHA1", 6, 30, 0⟩ : URL).Account ≠ []) ∧
    (⟨bytesOf "totp", [], bytesOf "x", bytesOf "AB", [], 0, 0, 0⟩ : URL).Account =
      trimSpaceB ((splitN2 (bytesOf " x :AB") (bytesOf ":")).getD 0 []) := by
  constructor
  · exact (c9_account_nonempty (bytesOf "otpauth://totp/alice?secret=ABCD") 1
      ⟨bytesOf "totp", [], bytesOf "alice", bytesOf "ABCD", bytesOf "SHA1", 6, 30, 0⟩
      (by decide)).1 (by decide)
  · exact (c9_account_nonempty (bytesOf " x :AB") 2
      ⟨bytesOf "totp", [], bytesOf "x", bytesOf "AB", [], 0, 0, 0⟩ (by decide)).2 (by decide)

end Gauth

namespace Gauth

/-- Whether an `Except` result is a success. -/
def isOkE {α : Type} (x : Except Err α) : Bool :=
  match x with
  | .ok _ => true
  | .error _ => false

/-- A trimmed line with no colon and no `otpauth://` prefix makes
`parseConfigLine` report exactly its line number. -/
theorem parseConfigLine_no_colon (trim : Bytes) (n : Nat)
    (hpre : hasPrefixB trim (bytesOf "otpauth://") = false)
    (hcol : indexOfSub (bytesOf ":") trim = none) :
    parseConfigLine trim n = .error (.invalidFormatLine n) := by
  unfold parseConfigLine
  rw [if_neg (by simp [hpre])]
  have hsp : splitN2 trim (bytesOf ":") = [trim] := by
    unfold splitN2
    rw [hcol]
  rw [hsp]

/-- The `ParseConfig` loop reports the 1-based number of the first malformed
(no-colon, non-URL) line when every earlier line is blank or parses
successfully. -/
theorem parseConfigLines_reports_line : ∀ (lines : List Bytes) (i N : Nat),
    i < N → N - i ≤ lines.length →
    (∀ j, j < N - 1 - i → trimSpaceB (lines.getD j []) = [] ∨
        isOkE (parseConfigLine (trimSpaceB (lines.getD j [])) (i + j + 1)) = true) →
    trimSpaceB (lines.getD (N - 1 - i) []) ≠ [] →
    hasPrefixB (trimSpaceB (lines.getD (N - 1 - i) [])) (bytesOf "otpauth://") = false →
    indexOfSub (bytesOf ":") (trimSpaceB (lines.getD (N - 1 - i) [])) = none →
    parseConfigLines lines i = .error (.invalidFormatLine N)
  | [], i, N, hiN, hlen, _, _, _, _ => by
      simp only [List.length_nil] at hlen
      omega
  | line :: rest, i, N, hiN, hlen, hearlier, htrim, hpre, hcol => by
      by_cases htop : N - 1 - i = 0
      · have hiN1 : i + 1 = N := by omega
        rw [htop] at htrim hpre hcol
        simp only [List.getD_cons_zero] at htrim hpre hcol
        simp only [parseConfigLines]
        rw [if_neg htrim, hiN1, parseConfigLine_no_colon _ _ hpre hcol]
      · have hidx : N - 1 - i = (N - 1 - (i + 1)) + 1 := by omega
        rw [hidx] at htrim hpre hcol
        simp only [List.getD_cons_succ] at htrim hpre hcol
        have hshift : ∀ j, j < N - 1 - (i + 1) →
            trimSpaceB (rest.getD j []) = [] ∨
            isOkE (parseConfigLine (trimSpaceB (rest.getD j [])) (i + 1 + j + 1)) = true := by
          intro j hj
          have hj' := hearlier (j + 1) (by omega)
          simp only [List.getD_cons_succ] at hj'
          have harith : i + (j + 1) + 1 = i + 1 + j + 1 := by omega
          rw [harith] at hj'
          exact hj'
        have hrec := parseConfigLines_reports_line rest (i + 1) N (by omega)
          (by simp only [List.length_cons] at hlen; omega) hshift htrim hpre hcol
        simp only [parseConfigLines]
        by_cases hblank : trimSpaceB line = []
        · rw [if_pos hblank]
          exact hrec
        · rw [if_neg hblank]
          have h0 := hearlier 0 (by omega)
          simp only [List.getD_cons_zero, Nat.add_zero] at h0
          rcases h0 with h0 | h0
          · exact absurd h0 hblank
          · cases hpc : parseConfigLine (trimSpaceB line) (i + 1) with
            | error e =>
                rw [hpc] at h0
                simp [isOkE] at h0
            | ok u =>
                rw [hrec]

/-- On success, the `ParseConfig` loop returns exactly one account per
non-blank line: blank lines contribute nothing. -/
theorem parseConfigLines_length : ∀ (lines : List Bytes) (i : Nat) (out : List URL),
    parseConfigLines lines i = .ok out →
    out.length = (lines.filter (fun l => !(trimSpaceB l).isEmpty)).length
  | [], i, out, h => by
      cases h
      rfl
  | line :: rest, i, out, h => by
      simp only [parseConfigLines] at h
      by_cases hblank : trimSpaceB line = []
      · rw [if_pos hblank] at h
        rw [List.filter_cons_of_neg (by simp [hblank])]
        exact parseConfigLines_length rest (i + 1) out h
      · rw [if_neg hblank] at h
        cases hpc : parseConfigLine (trimSpaceB line) (i + 1) with
        | error e =>
            rw [hpc] at h
            cases h
        | ok u =>
            rw [hpc] at h
            cases hrec : parseConfigLines rest (i + 1) with
            | error e =>
                rw [hrec] at h
                cases h
            | ok us =>
                rw [hrec] at h
                cases h
                rw [List.filter_cons_of_pos (by simp [hblank])]
                simp only [List.length_cons]
                rw [parseConfigLines_length rest (i + 1) us hrec]

/-- C8 counterexample: in the input `"a\nb"` the second line satisfies the
claim's premise (non-blank, no `otpauth://` prefix, no colon), yet the
parse error reports line 1 — the first malformed line — not 2. -/
theorem c8_counterexample_earlier_line :
    trimSpaceB ((goSplit (bytesOf "a\nb") [10]).getD 1 []) ≠ [] ∧
    hasPrefixB (trimSpaceB ((goSplit (bytesOf "a\nb") [10]).getD 1 []))
      (bytesOf "otpauth://") = false ∧
    indexOfSub (bytesOf ":") (trimSpaceB ((goSplit (bytesOf "a\nb") [10]).getD 1 [])) = none ∧
    ParseConfig (bytesOf "a\nb") = .error (.invalidFormatLine 1) := by
  refine ⟨by decide, by decide, by decide, by decide⟩

/-- C8 (amended): when the N-th line (1-indexed, counting blank lines) is
non-blank, is not an `otpauth://` line and has no colon, *and every earlier
line is blank or parses successfully*, `ParseConfig` fails with the
`MalformedLine` error carrying exactly N; blank lines are skipped and
produce no account (on success the output has exactly one account per
non-blank line). -/
theorem c8_malformed_line_number :
    (∀ (data : Bytes) (N : Nat), 1 ≤ N → N ≤ (goSplit data [10]).length →
      trimSpaceB ((goSplit data [10]).getD (N - 1) []) ≠ [] →
      hasPrefixB (trimSpaceB ((goSplit data [10]).getD (N - 1) []))
        (bytesOf "otpauth://") = false →
      indexOfSub (bytesOf ":") (trimSpaceB ((goSplit data [10]).getD (N - 1) [])) = none →
      (∀ j, j < N - 1 → trimSpaceB ((goSplit data [10]).getD j []) = [] ∨
          isOkE (parseConfigLine (trimSpaceB ((goSplit data [10]).getD j [])) (j + 1)) = true) →
      ParseConfig data = .error (.invalidFormatLine N))
  ∧ (∀ (data : Bytes) (out : List URL), ParseConfig data = .ok out →
      out.length = ((goSplit data [10]).filter (fun l => !(trimSpaceB l).isEmpty)).length) := by
  constructor
  · intro data N h1 hlen htrim hpre hcol hearlier
    unfold ParseConfig
    refine parseConfigLines_reports_line (goSplit data [10]) 0 N (by omega) (by omega)
      ?_ (by simpa using htrim) (by simpa using hpre) (by simpa using hcol)
    intro j hj
    have := hearlier j (by omega)
    simpa using this
  · intro data out h
    exact parseConfigLines_length (goSplit data [10]) 0 out h

/-- Witness for C8: in `"a:b\n\nzzz"` the third line (after one account
line and one blank line) is malformed and reported as line 3; and a
one-account config parses to a single-element list. -/
theorem c8_malformed_line_number_witness :
    ParseConfig (bytesOf "a:b\n\nzzz") = .error (.invalidFormatLine 3) ∧
    (⟨bytesOf "totp", [], [120], [121], [], 0, 0, 0⟩ : URL) ::
        ([] : List URL) = [⟨bytesOf "totp", [], [120], [121], [], 0, 0, 0⟩] ∧
    ([⟨bytesOf "totp", [], [120], [121], [], 0, 0, 0⟩] : List URL).length =
      ((goSplit (bytesOf "x:y") [10]).filter (fun l => !(trimSpaceB l).isEmpty)).length := by
  refine ⟨?_, rfl, ?_⟩
  · exact (c8_malformed_line_number).1 (bytesOf "a:b\n\nzzz") 3 (by decide) (by decide)
      (by decide) (by decide) (by decide) (by decide)
  · exact (c8_malformed_line_number).2 (bytesOf "x:y")
      [⟨bytesOf "totp", [], [120], [121], [], 0, 0, 0⟩] (by decide)

end Gauth

namespace Gauth

/-! ## Decimal digit strings (for C2) -/

/-- Value of a decimal digit string, most significant digit first. -/
def pval (s : Bytes) : Nat := s.foldl (fun a c => a * 10 + (c - 48)) 0

/-- Folding from an arbitrary accumulator shifts the value. -/
theorem pval_foldl_from : ∀ (s : Bytes) (a : Nat),
    s.foldl (fun a c => a * 10 + (c - 48)) a = a * 10 ^ s.length + pval s
  | [], a => by simp [pval]
  | c :: t, a => by
      simp only [List.foldl_cons, List.length_cons, pval]
      rw [pval_foldl_from t (a * 10 + (c - 48)), pval_foldl_from t (0 * 10 + (c - 48))]
      ring

/-- `pval` over an append. -/
theorem pval_append (s t : Bytes) : pval (s ++ t) = pval s * 10 ^ t.length + pval t := by
  unfold pval
  rw [List.foldl_append]
  exact pval_foldl_from t _

/-- `pval` of a cons. -/
theorem pval_cons (c : Nat) (t : Bytes) : pval (c :: t) = (c - 48) * 10 ^ t.length + pval t := by
  have := pval_foldl_from t (0 * 10 + (c - 48))
  simpa [pval] using this

/-- A string of digit bytes evaluates below `10 ^ length`. -/
theorem pval_lt : ∀ (s : Bytes), (∀ c ∈ s, 48 ≤ c ∧ c ≤ 57) → pval s < 10 ^ s.length
  | [], _ => by simp [pval]
  | c :: t, h => by
      have ih := pval_lt t (fun c hc => h c (List.mem_cons_of_mem _ hc))
      have hc : c - 48 ≤ 9 := by
        have := h c (List.mem_cons_self c t)
        omega
      have h9 : (c - 48) * 10 ^ t.length ≤ 9 * 10 ^ t.length :=
        Nat.mul_le_mul_right _ hc
      rw [pval_cons, List.length_cons, pow_succ]
      omega

/-- Leading zero characters do not change the value zero. -/
theorem pval_replicate_48 : ∀ (k : Nat), pval (List.replicate k 48) = 0
  | 0 => rfl
  | k + 1 => by
      rw [List.replicate_succ, pval_cons, pval_replicate_48 k]
      simp

/-- Two digit strings of equal length and equal value are equal. -/
theorem digits_inj : ∀ (s t : Bytes), s.length = t.length →
    (∀ c ∈ s, 48 ≤ c ∧ c ≤ 57) → (∀ c ∈ t, 48 ≤ c ∧ c ≤ 57) → pval s = pval t → s = t
  | [], [], _, _, _, _ => rfl
  | c :: s, d :: t, hl, hs, ht, hv => by
      have hlen : s.length = t.length := by simpa using hl
      rw [pval_cons, pval_cons, hlen] at hv
      have hps := pval_lt s (fun c hc => hs c (List.mem_cons_of_mem _ hc))
      have hpt := pval_lt t (fun c hc => ht c (List.mem_cons_of_mem _ hc))
      rw [hlen] at hps
      have hPpos : 0 < 10 ^ t.length := Nat.pos_pow_of_pos _ (by norm_num)
      have hquot : c - 48 = d - 48 := by
        have h1 : ((c - 48) * 10 ^ t.length + pval s) / 10 ^ t.length = c - 48 := by
          rw [Nat.mul_comm (c - 48), Nat.mul_add_div hPpos, Nat.div_eq_of_lt hps,
            Nat.add_zero]
        have h2 : ((d - 48) * 10 ^ t.length + pval t) / 10 ^ t.length = d - 48 := by
          rw [Nat.mul_comm (d - 48), Nat.mul_add_div hPpos, Nat.div_eq_of_lt hpt,
            Nat.add_zero]
        rw [← h1, ← h2, hv]
      have hcd : c = d := by
        have hc := hs c (List.mem_cons_self c s)
        have hd := ht d (List.mem_cons_self d t)
        omega
      have hrest : pval s = pval t := by
        rw [hquot] at hv
        exact Nat.add_left_cancel hv
      rw [hcd, digits_inj s t hlen (fun c hc => hs c (List.mem_cons_of_mem _ hc))
        (fun c hc => ht c (List.mem_cons_of_mem _ hc)) hrest]

/-- `natToDigitsAux` only prepends to its accumulator. -/
theorem nta_append : ∀ (fuel n : Nat) (acc : Bytes),
    natToDigitsAux fuel n acc = natToDigitsAux fuel n [] ++ acc
  | 0, n, acc => rfl
  | fuel + 1, n, acc => by
      by_cases h0 : n = 0
      · simp [natToDigitsAux, h0]
      · simp only [natToDigitsAux, if_neg h0]
        rw [nta_append fuel (n / 10) ((48 + n % 10) :: acc),
          nta_append fuel (n / 10) [48 + n % 10], List.append_assoc]
        rfl

/-- `natToDigitsAux` produces decimal digit bytes. -/
theorem nta_digits : ∀ (fuel n : Nat), ∀ c ∈ natToDigitsAux fuel n [], 48 ≤ c ∧ c ≤ 57
  | 0, n => by simp [natToDigitsAux]
  | fuel + 1, n => by
      by_cases h0 : n = 0
      · simp [natToDigitsAux, h0]
      · intro c hc
        simp only [natToDigitsAux, if_neg h0] at hc
        rw [nta_append] at hc
        rcases List.mem_append.mp hc with h | h
        · exact nta_digits fuel (n / 10) c h
        · have : c = 48 + n % 10 := by simpa using h
          have hm : n % 10 < 10 := Nat.mod_lt n (by norm_num)
          omega

/-- With enough fuel, `natToDigitsAux` evaluates back to its input. -/
theorem nta_val : ∀ (fuel n : Nat), n < 10 ^ fuel → pval (natToDigitsAux fuel n []) = n
  | 0, n, h => by
      have : n = 0 := by simpa using h
      subst this
      rfl
  | fuel + 1, n, h => by
      by_cases h0 : n = 0
      · subst h0
        rfl
      · simp only [natToDigitsAux, if_neg h0]
        rw [nta_append, pval_append]
        have hdiv : n / 10 < 10 ^ fuel := by
          rw [pow_succ] at h
          omega
        rw [nta_val fuel (n / 10) hdiv]
        have : pval [48 + n % 10] = n % 10 := by
          simp [pval]
        rw [this]
        simp only [List.length_cons, List.length_nil, pow_one]
        omega

/-- `natToDigitsAux` emits at most `k` digits for inputs below `10 ^ k`. -/
theorem nta_len_le : ∀ (fuel n k : Nat), n < 10 ^ k → (natToDigitsAux fuel n []).length ≤ k
  | 0, n, k, _ => by simp [natToDigitsAux]
  | fuel + 1, n, k, h => by
      by_cases h0 : n = 0
      · simp [natToDigitsAux, h0]
      · have hk : 1 ≤ k := by
          by_contra hk
          have hk0 : k = 0 := by omega
          subst hk0
          simp at h
          omega
        simp only [natToDigitsAux, if_neg h0]
        rw [nta_append, List.length_append]
        have hdiv : n / 10 < 10 ^ (k - 1) := by
          have hkk : k = (k - 1) + 1 := by omega
          rw [hkk, pow_succ] at h
          omega
        have := nta_len_le fuel (n / 10) (k - 1) hdiv
        simp only [List.length_cons, List.length_nil]
        omega

/-- `formatUint` produces decimal digit bytes. -/
theorem formatUint_digits (n : Nat) : ∀ c ∈ formatUint n, 48 ≤ c ∧ c ≤ 57 := by
  unfold formatUint
  by_cases h0 : n = 0
  · simp [h0]
  · rw [if_neg h0]
    exact nta_digits 64 n

/-- `formatUint` round-trips through `pval` on the `uint64`-sized domain. -/
theorem pval_formatUint (n : Nat) (h : n < 10 ^ 64) : pval (formatUint n) = n := by
  unfold formatUint
  by_cases h0 : n = 0
  · subst h0
    rfl
  · rw [if_neg h0]
    exact nta_val 64 n h

/-- `formatUint n` has at most `k` characters when `n < 10 ^ k`. -/
theorem formatUint_length_le (n k : Nat) (h : n < 10 ^ k) (hk : 1 ≤ k) :
    (formatUint n).length ≤ k := by
  unfold formatUint
  by_cases h0 : n = 0
  · simp [h0]
    omega
  · rw [if_neg h0]
    exact nta_len_le 64 n k h

/-- One non-zero step of `natToDigitsAux`. -/
theorem nta_succ (fuel n : Nat) (acc : Bytes) (h0 : n ≠ 0) :
    natToDigitsAux (fuel + 1) n acc = natToDigitsAux fuel (n / 10) ((48 + n % 10) :: acc) := by
  rw [natToDigitsAux, if_neg h0]

/-- `formatUint` never returns the empty string. -/
theorem formatUint_length_pos (n : Nat) : 1 ≤ (formatUint n).length := by
  unfold formatUint
  by_cases h0 : n = 0
  · simp [h0]
  · rw [if_neg h0]
    show 1 ≤ (natToDigitsAux 64 n []).length
    rw [show (64 : Nat) = 63 + 1 from rfl, nta_succ 63 n [] h0, nta_append,
      List.length_append]
    simp

end Gauth

namespace Gauth

/-- `getD` on a list of byte values stays below 256 (the default 0 included). -/
theorem getD_lt_256 (l : Bytes) (hb : ∀ b ∈ l, b < 256) (i : Nat) : l.getD i 0 < 256 := by
  rw [List.getD_eq_getElem?_getD]
  cases hg : l[i]? with
  | none => simp
  | some x =>
      simp only [Option.getD_some]
      exact hb x (List.getElem?_mem hg)

/-- A truncated value is a 31-bit integer when the digest holds bytes. -/
theorem Truncate_lt (digest : Bytes) (hb : ∀ b ∈ digest, b < 256) (v : Nat)
    (h : Truncate digest = some v) : v < 2 ^ 31 := by
  unfold Truncate at h
  cases hl : digest.getLast? with
  | none =>
      simp only [hl] at h
      cases h
  | some last =>
      simp only [hl] at h
      by_cases hoff : (last &&& 15) + 4 ≤ digest.length
      · rw [if_pos hoff] at h
        cases h
        have h0 : digest.getD (last &&& 15) 0 &&& 127 ≤ 127 := Nat.and_le_right
        have h1 := getD_lt_256 digest hb ((last &&& 15) + 1)
        have h2 := getD_lt_256 digest hb ((last &&& 15) + 2)
        have h3 := getD_lt_256 digest hb ((last &&& 15) + 3)
        refine Nat.or_lt_two_pow (Nat.or_lt_two_pow (Nat.or_lt_two_pow ?_ ?_) ?_) ?_
        · rw [Nat.shiftLeft_eq]
          omega
        · rw [Nat.shiftLeft_eq]
          omega
        · rw [Nat.shiftLeft_eq]
          omega
        · omega
      · rw [if_neg hoff] at h
        cases h

/-- `formatDecimal` computes the truncated value reduced modulo `10 ^ w`,
left-zero-padded to exactly `w` characters, for every width `1 ≤ w ≤ 21`
(beyond 21 the Go padding slice can panic). -/
theorem formatDecimal_spec (digest : Bytes) (w : Nat) (h1 : 1 ≤ w) (h21 : w ≤ 21)
    (hb : ∀ b ∈ digest, b < 256) :
    formatDecimal digest w = (Truncate digest).map (fun v =>
      List.replicate (w - (formatUint (v % 10 ^ w)).length) 48 ++ formatUint (v % 10 ^ w)) := by
  unfold formatDecimal
  cases ht : Truncate digest with
  | none => rfl
  | some v =>
      have hv31 : v < 2 ^ 31 := Truncate_lt digest hb v ht
      have hv64 : v < 10 ^ 64 := by
        have hcmp : (2 : Nat) ^ 31 < 10 ^ 64 := by norm_num
        omega
      simp only [Option.map_some']
      have hfp := formatUint_length_pos v
      by_cases hlen : (formatUint v).length < w
      · rw [if_pos hlen, if_pos (by omega : w - (formatUint v).length ≤ 20)]
        simp only [Option.map_some']
        have hmod : v % 10 ^ w = v := by
          apply Nat.mod_eq_of_lt
          have hvlen : v < 10 ^ (formatUint v).length := by
            have hp := pval_lt (formatUint v) (formatUint_digits v)
            rw [pval_formatUint v hv64] at hp
            exact hp
          calc v < 10 ^ (formatUint v).length := hvlen
            _ ≤ 10 ^ w := Nat.pow_le_pow_right (by norm_num) (by omega)
        have hlentot :
            (List.replicate (w - (formatUint v).length) 48 ++ formatUint v).length = w := by
          simp only [List.length_append, List.length_replicate]
          omega
        rw [hlentot, Nat.sub_self, List.drop_zero, hmod]
      · rw [if_neg hlen]
        simp only [Option.map_some']
        push_neg at hlen
        have hdrop_len : ((formatUint v).drop ((formatUint v).length - w)).length = w := by
          rw [List.length_drop]
          omega
        have hmodlt : v % 10 ^ w < 10 ^ w :=
          Nat.mod_lt _ (Nat.pos_pow_of_pos _ (by norm_num))
        have hmod64 : v % 10 ^ w < 10 ^ 64 := by
          have hle : (10 : Nat) ^ w ≤ 10 ^ 64 := Nat.pow_le_pow_right (by norm_num) (by omega)
          omega
        have hlen' : (formatUint (v % 10 ^ w)).length ≤ w :=
          formatUint_length_le _ _ hmodlt h1
        have hrhs_len : (List.replicate (w - (formatUint (v % 10 ^ w)).length) 48 ++
            formatUint (v % 10 ^ w)).length = w := by
          simp only [List.length_append, List.length_replicate]
          omega
        have hdropdig : ∀ c ∈ (formatUint v).drop ((formatUint v).length - w),
            48 ≤ c ∧ c ≤ 57 :=
          fun c hc => formatUint_digits v c (List.mem_of_mem_drop hc)
        have hdlt : pval ((formatUint v).drop ((formatUint v).length - w)) < 10 ^ w := by
          have hp := pval_lt _ hdropdig
          rw [hdrop_len] at hp
          exact hp
        have hsplit : formatUint v =
            (formatUint v).take ((formatUint v).length - w) ++
              (formatUint v).drop ((formatUint v).length - w) :=
          (List.take_append_drop _ _).symm
        have hscomp : v = pval ((formatUint v).take ((formatUint v).length - w)) * 10 ^ w +
            pval ((formatUint v).drop ((formatUint v).length - w)) := by
          have hv_eq := pval_formatUint v hv64
          rw [hsplit, pval_append, hdrop_len] at hv_eq
          exact hv_eq.symm
        have hmodeq : v % 10 ^ w =
            pval ((formatUint v).drop ((formatUint v).length - w)) := by
          conv_lhs => rw [hscomp]
          rw [Nat.mul_comm (pval ((formatUint v).take ((formatUint v).length - w))) (10 ^ w),
            Nat.mul_add_mod, Nat.mod_eq_of_lt hdlt]
        have hrhs_val : pval (List.replicate (w - (formatUint (v % 10 ^ w)).length) 48 ++
            formatUint (v % 10 ^ w)) = v % 10 ^ w := by
          rw [pval_append, pval_replicate_48, pval_formatUint _ hmod64]
          simp
        congr 1
        refine digits_inj _ _ (by rw [hdrop_len, hrhs_len]) hdropdig ?_ ?_
        · intro c hc
          rcases List.mem_append.mp hc with hcm | hcm
          · have hc48 : c = 48 := List.eq_of_mem_replicate hcm
            omega
          · exact formatUint_digits _ c hcm
        · rw [hrhs_val, ← hmodeq]

/-- The specification's reference HOTP, written from the spec's words (for
the refinement claim C2): HMAC of the big-endian counter, RFC 4226 dynamic
truncation, reduction modulo `10 ^ digits`, and left-zero-padding to
exactly `digits` characters; a zero digit count defaults to 6. -/
def hotpSpecRef (H : HashFn) (key : Bytes) (counter : Nat) (d : Nat) : Option Bytes :=
  let digits := if d = 0 then 6 else d
  (Truncate (hmacF H key (be64 counter))).map (fun v =>
    List.replicate (digits - (formatUint (v % 10 ^ digits)).length) 48 ++
      formatUint (v % 10 ^ digits))

end Gauth

namespace Gauth

/-- C2 counterexample: at 31 digits the Go code panics (the zero-padding
constant has only 20 characters), modelled as `none`, while the reference
algorithm produces the 31-character code — so the claim fails for digit
counts beyond 21. -/
theorem c2_counterexample_format_panic :
    Config.HOTP { Key := [], Hash := some sha1H, Digits := 31 } 0 = none ∧
    hotpSpecRef sha1H [] 0 31 = some (bytesOf "0000000000000000000001335328482") ∧
    Config.HOTP { Key := [], Hash := some sha1H, Digits := 31 } 0 ≠ hotpSpecRef sha1H [] 0 31 := by
  refine ⟨by decide, by decide, by decide⟩

/-- C2 (amended): for every hash, key, counter and digit count `d ≤ 21`,
`Config.HOTP` equals the reference algorithm (HMAC, RFC 4226 dynamic
truncation, reduction modulo `10 ^ d`, left-zero-padding to exactly `d`
characters, `d = 0` defaulting to 6); for larger digit counts the Go
padding slice can panic. -/
theorem c2_hotp_matches_reference (H : HashFn) (key : Bytes) (counter d : Nat) (hd : d ≤ 21) :
    Config.HOTP { Key := key, Hash := some H, Digits := (d : Int) } counter =
      hotpSpecRef H key counter d := by
  have hw1 : 1 ≤ (if d = 0 then 6 else d) := by split <;> omega
  have hw21 : (if d = 0 then 6 else d) ≤ 21 := by split <;> omega
  have hdg : Config.hmac { Key := key, Hash := some H, Digits := (d : Int) } counter =
      hmacF H key (be64 counter) := rfl
  have hb : ∀ b ∈ hmacF H key (be64 counter), b < 256 := by
    intro b hbm
    unfold hmacF at hbm
    exact H.wf _ b hbm
  have hdig : ({ Key := key, Hash := some H, Digits := (d : Int) } : Config).digits =
      (if d = 0 then 6 else d) := by
    unfold Config.digits
    rw [show ({ Key := key, Hash := some H, Digits := (d : Int) } : Config).Digits = (d : Int)
      from rfl]
    by_cases h0 : d = 0
    · subst h0
      rfl
    · rw [if_neg (by omega), if_neg h0]
      simp
  unfold Config.HOTP
  rw [hdig, hdg, formatDecimal_spec (hmacF H key (be64 counter)) _ hw1 hw21 hb]
  unfold hotpSpecRef
  cases ht : Truncate (hmacF H key (be64 counter)) with
  | none => simp [ht]
  | some v =>
      simp only [ht, Option.map_some']
      have hmodlt : v % 10 ^ (if d = 0 then 6 else d) < 10 ^ (if d = 0 then 6 else d) :=
        Nat.mod_lt _ (Nat.pos_pow_of_pos _ (by norm_num))
      have hlen' := formatUint_length_le _ _ hmodlt hw1
      rw [if_pos (by simp only [List.length_append, List.length_replicate]; omega)]

/-- Witness for C2 at a concrete input: with SHA-1, the empty key, counter
0 and 8 digits, both the code and the reference produce `"35328482"`. -/
theorem c2_hotp_matches_reference_witness :
    (8 : Nat) ≤ 21 ∧
    Config.HOTP { Key := [], Hash := some sha1H, Digits := (8 : Int) } 0 =
      hotpSpecRef sha1H [] 0 8 ∧
    Config.HOTP { Key := [], Hash := some sha1H, Digits := (8 : Int) } 0 =
      some (bytesOf "35328482") :=
  ⟨by decide, c2_hotp_matches_reference sha1H [] 0 8 (by decide), by decide⟩

end Gauth

namespace Gauth

/-! ## String-splitting lemmas (for C6) -/

/-- When the first byte of `sep` does not occur in `s`, `sep` does not occur
in `s` at all. -/
theorem indexOfSub_none (h : Nat) (sep : Bytes) (hh : sep.head? = some h) :
    ∀ s : Bytes, h ∉ s → indexOfSub sep s = none := by
  intro s
  induction s with
  | nil =>
      intro _
      match sep, hh with
      | s0 :: sep', _ => rfl
  | cons c t ih =>
      intro hs
      match sep, hh with
      | s0 :: sep', hh =>
          have hs0 : s0 = h := by simpa using hh
          have hne : s0 ≠ c := by
            subst hs0
            exact fun he => hs (he ▸ List.mem_cons_self c t)
          simp only [indexOfSub]
          rw [if_neg (by simp [List.isPrefixOf, hne]),
            ih (fun hm => hs (List.mem_cons_of_mem c hm))]
          rfl

/-- When the first byte of `sep` does not occur in `a`, the first occurrence
of `sep` in `a ++ sep ++ b` is at position `a.length`. -/
theorem indexOfSub_first (h : Nat) (sep a b : Bytes) (hh : sep.head? = some h)
    (hha : h ∉ a) : indexOfSub sep (a ++ sep ++ b) = some a.length := by
  induction a with
  | nil =>
      match sep, hh with
      | s0 :: sep', _ =>
          have hpre : (s0 :: sep').isPrefixOf ((s0 :: sep') ++ b) = true :=
            List.isPrefixOf_iff_prefix.mpr (List.prefix_append _ _)
          simp only [List.nil_append, List.cons_append, indexOfSub, List.length_nil]
          rw [if_pos (by simpa using hpre)]
  | cons c a ih =>
      match sep, hh with
      | s0 :: sep', hh =>
          have hs0 : s0 = h := by simpa using hh
          have hne : s0 ≠ c := by
            subst hs0
            exact fun he => hha (he ▸ List.mem_cons_self c a)
          simp only [List.cons_append, indexOfSub, List.append_eq]
          rw [if_neg (by simp [List.isPrefixOf, hne]),
            ih (fun hm => hha (List.mem_cons_of_mem c hm))]
          rfl

/-- `SplitN(s, sep, 2)` around the first occurrence. -/
theorem splitN2_first (h : Nat) (sep a b : Bytes) (hh : sep.head? = some h)
    (hha : h ∉ a) : splitN2 (a ++ sep ++ b) sep = [a, b] := by
  unfold splitN2
  rw [indexOfSub_first h sep a b hh hha]
  have hta : (a ++ sep ++ b).take a.length = a := by
    rw [List.append_assoc]
    exact List.take_left a (sep ++ b)
  have hdr : (a ++ sep ++ b).drop (a.length + sep.length) = b := by
    refine List.drop_left' ?_
    rw [List.length_append]
  simp only [hta, hdr]

/-- `SplitN(s, sep, 2)` without an occurrence. -/
theorem splitN2_none_eq (sep s : Bytes) (hn : indexOfSub sep s = none) :
    splitN2 s sep = [s] := by
  unfold splitN2
  rw [hn]

/-- `goSplitF` on separator-free input. -/
theorem goSplitF_none (sep s : Bytes) (fuel : Nat) (hn : indexOfSub sep s = none) :
    goSplitF sep fuel s = [s] := by
  cases fuel with
  | zero => rfl
  | succ f =>
      simp only [goSplitF]
      rw [hn]

/-- `strings.Split` undoes `strings.Join` for `&`-free non-empty parts. -/
theorem goSplitF_joinB : ∀ (parts : List Bytes) (fuel : Nat), parts ≠ [] →
    (∀ p ∈ parts, (38 : Nat) ∉ p) → parts.length ≤ fuel + 1 →
    goSplitF (bytesOf "&") fuel (joinB (bytesOf "&") parts) = parts := by
  intro parts
  induction parts with
  | nil =>
      intro fuel hne _ _
      exact absurd rfl hne
  | cons p rest ih =>
      intro fuel _ hfree hlen
      cases rest with
      | nil =>
          exact goSplitF_none _ _ _ (indexOfSub_none 38 _ (by decide) p
            (hfree p (List.mem_cons_self p [])))
      | cons q rest2 =>
          match fuel, hlen with
          | f + 1, hlen =>
              have hjoin : joinB (bytesOf "&") (p :: q :: rest2) =
                  p ++ bytesOf "&" ++ joinB (bytesOf "&") (q :: rest2) := rfl
              simp only [goSplitF, hjoin]
              rw [indexOfSub_first 38 (bytesOf "&") p (joinB (bytesOf "&") (q :: rest2))
                (by decide) (hfree p (List.mem_cons_self p _))]
              have hta : (p ++ bytesOf "&" ++ joinB (bytesOf "&") (q :: rest2)).take p.length
                  = p := by
                rw [List.append_assoc]
                exact List.take_left p _
              have hdr : (p ++ bytesOf "&" ++ joinB (bytesOf "&") (q :: rest2)).drop
                  (p.length + (bytesOf "&").length) = joinB (bytesOf "&") (q :: rest2) := by
                refine List.drop_left' ?_
                rw [List.length_append]
              simp only [hta, hdr]
              rw [ih f (by simp) (fun x hx => hfree x (List.mem_cons_of_mem p hx))
                (by simp only [List.length_cons] at hlen ⊢; omega)]

end Gauth

namespace Gauth

/-! ## Percent-escaping lemmas (for C6) -/

/-- Hexadecimal encoding of a nibble round-trips. -/
theorem hexUpper_roundtrip : ∀ n < 16, isHexByte (hexUpper n) = true ∧
    unhexByte (hexUpper n) = n := by decide

/-- Characters that escape untouched are not `%`. -/
theorem not_escaped_ne_37 (c : Nat) (h : shouldEscapePS c = false) : c ≠ 37 := by
  intro he
  subst he
  exact absurd h (by decide)

/-- One-step unescape of a literal byte. -/
theorem pathUnescape_cons_ne (c : Nat) (t : Bytes) (h : c ≠ 37) :
    pathUnescape (c :: t) = (pathUnescape t).map (fun r => c :: r) := by
  rw [pathUnescape.eq_def]
  simp only [h, if_false]

/-- One-step unescape of a `%XY` triple. -/
theorem pathUnescape_pct (a b : Nat) (t : Bytes) (ha : isHexByte a = true)
    (hb : isHexByte b = true) :
    pathUnescape (37 :: a :: b :: t) =
      (pathUnescape t).map (fun r => (unhexByte a * 16 + unhexByte b) :: r) := by
  rw [pathUnescape.eq_def]
  simp only [ha, hb, if_pos rfl, Bool.and_self, if_true]

/-- Unescaping a `pathEscape`-escaped prefix recovers it and continues. -/
theorem pathUnescape_escape_append : ∀ (s rest : Bytes), (∀ c ∈ s, c < 256) →
    pathUnescape (pathEscape s ++ rest) = (pathUnescape rest).map (fun r => s ++ r)
  | [], rest, _ => by
      simp only [pathEscape, List.flatMap_nil, List.nil_append]
      cases pathUnescape rest <;> simp
  | c :: s, rest, hlt => by
      have hc : c < 256 := hlt c (List.mem_cons_self _ _)
      by_cases hesc : shouldEscapePS c = true
      · have h1 := hexUpper_roundtrip (c / 16) (by omega)
        have h2 := hexUpper_roundtrip (c % 16) (by omega)
        have hpe : pathEscape (c :: s) ++ rest =
            37 :: hexUpper (c / 16) :: hexUpper (c % 16) :: (pathEscape s ++ rest) := by
          simp [pathEscape, hesc]
        rw [hpe, pathUnescape_pct _ _ _ h1.1 h2.1,
          pathUnescape_escape_append s rest (fun x hx => hlt x (List.mem_cons_of_mem _ hx))]
        cases pathUnescape rest with
        | none => rfl
        | some r =>
            simp only [Option.map_some', Option.some.injEq, List.cons_append]
            rw [h1.2, h2.2]
            congr 1
            omega
      · have hb : shouldEscapePS c = false := by simpa using hesc
        have hpe : pathEscape (c :: s) ++ rest = c :: (pathEscape s ++ rest) := by
          simp [pathEscape, hb]
        rw [hpe, pathUnescape_cons_ne c _ (not_escaped_ne_37 c hb),
          pathUnescape_escape_append s rest (fun x hx => hlt x (List.mem_cons_of_mem _ hx))]
        cases pathUnescape rest <;> rfl

/-- Unescaping leaves `%`-free strings unchanged. -/
theorem pathUnescape_no_pct : ∀ (s : Bytes), (∀ c ∈ s, c ≠ 37) → pathUnescape s = some s
  | [], _ => rfl
  | c :: t, h => by
      rw [pathUnescape_cons_ne c t (h c (List.mem_cons_self _ _)),
        pathUnescape_no_pct t (fun x hx => h x (List.mem_cons_of_mem _ hx))]
      rfl

/-- Unescaping a whole escaped string recovers it. -/
theorem pathUnescape_pathEscape (s : Bytes) (h : ∀ c ∈ s, c < 256) :
    pathUnescape (pathEscape s) = some s := by
  have hh := pathUnescape_escape_append s [] h
  rw [List.append_nil] at hh
  rw [hh]
  simp [pathUnescape]

/-- A byte that is not in `s`, is not `%`, and is not a decimal-digit or
upper-hex byte does not appear in the escaped form of `s`. -/
theorem pathEscape_not_mem (s : Bytes) (x : Nat) (hs : ∀ c ∈ s, c < 256) (hx : x ∉ s)
    (h37 : x ≠ 37) (hdig : ¬(48 ≤ x ∧ x ≤ 57)) (hhex : ¬(65 ≤ x ∧ x ≤ 70)) :
    x ∉ pathEscape s := by
  intro hmem
  have hrange : ∀ n, n < 16 → (48 ≤ hexUpper n ∧ hexUpper n ≤ 57) ∨
      (65 ≤ hexUpper n ∧ hexUpper n ≤ 70) := by decide
  simp only [pathEscape, List.mem_flatMap] at hmem
  obtain ⟨a, ha, hxa⟩ := hmem
  have ha256 := hs a ha
  by_cases hesc : shouldEscapePS a = true
  · rw [if_pos hesc] at hxa
    simp only [List.mem_cons, List.not_mem_nil, or_false] at hxa
    rcases hxa with rfl | rfl | rfl
    · exact h37 rfl
    · rcases hrange (a / 16) (by omega) with hr | hr
      · exact hdig hr
      · exact hhex hr
    · rcases hrange (a % 16) (by omega) with hr | hr
      · exact hdig hr
      · exact hhex hr
  · rw [if_neg hesc] at hxa
    simp only [List.mem_cons, List.not_mem_nil, or_false] at hxa
    subst hxa
    exact hx ha

/-- Escaping a non-empty string is non-empty. -/
theorem pathEscape_ne_nil (s : Bytes) (h : s ≠ []) : pathEscape s ≠ [] := by
  match s, h with
  | c :: t, _ =>
      simp only [pathEscape, List.flatMap_cons]
      by_cases hesc : shouldEscapePS c = true <;> simp [hesc]

/-- `strings.Join(strings.Fields(s), "")` is the identity on
whitespace-free strings. -/
theorem dropSpaces_id (s : Bytes) (h : ∀ c ∈ s, isSpaceByte c = false) : dropSpaces s = s :=
  List.filter_eq_self.mpr (fun a ha => by simp [h a ha])

/-- `dropWhile (== 61)` is the identity when 61 does not occur. -/
theorem dropWhile_eq61_id (l : Bytes) (h : ∀ c ∈ l, c ≠ 61) :
    l.dropWhile (fun c => c == 61) = l := by
  cases l with
  | nil => rfl
  | cons c t =>
      rw [List.dropWhile_cons_of_neg]
      simp [h c (List.mem_cons_self _ _)]

/-- `strings.TrimRight(s, "=")` is the identity on `=`-free strings. -/
theorem trimRightEqB_id (s : Bytes) (h : (61 : Nat) ∉ s) : trimRightEqB s = s := by
  unfold trimRightEqB
  rw [dropWhile_eq61_id _ (fun c hc => fun he => h (he ▸ (List.mem_reverse.mp hc))),
    List.reverse_reverse]

/-- `strconv.ParseUint` inverts `strconv.FormatUint` on the `uint64` domain. -/
theorem parseUint64_formatUint (n : Nat) (h : n < 18446744073709551616) :
    parseUint64 (formatUint n) = some n := by
  have hne : (formatUint n).isEmpty = false := by
    have hp := formatUint_length_pos n
    cases hfv : formatUint n with
    | nil => rw [hfv] at hp; simp at hp
    | cons c t => rfl
  have hall : (formatUint n).all (fun c => 48 ≤ c && c ≤ 57) = true := by
    rw [List.all_eq_true]
    intro c hc
    have := formatUint_digits n c hc
    simp only [Bool.and_eq_true, decide_eq_true_eq]
    omega
  have hval : (formatUint n).foldl (fun a c => a * 10 + (c - 48)) 0 = n := by
    have h64 : n < 10 ^ 64 := by
      have : (2 : Nat) ^ 64 ≤ 10 ^ 64 := Nat.pow_le_pow_left (by norm_num) 64
      omega
    exact pval_formatUint n h64
  simp only [parseUint64, hne, Bool.false_eq_true, if_false, hall, if_true, hval, h, if_pos]

end Gauth

namespace Gauth

/-! ## C6: helper lemmas -/

/-- A conditional append of a singleton, floated to the right. -/
theorem ite_append_single (c : Prop) [Decidable c] (l : List Bytes) (x : Bytes) :
    (if c then l ++ [x] else l) = l ++ (if c then [x] else []) := by
  by_cases hc : c <;> simp [hc]

/-- Membership in a conditional singleton. -/
theorem mem_ite_single {c : Prop} [Decidable c] {p x : Bytes}
    (h : p ∈ (if c then [x] else [])) : p = x := by
  by_cases hc : c
  · rw [if_pos hc] at h
    simpa using h
  · rw [if_neg hc] at h
    simp at h

/-- An empty conditional singleton has a false condition. -/
theorem ite_single_eq_nil {c : Prop} [Decidable c] {x : Bytes}
    (h : (if c then [x] else []) = []) : ¬c := by
  by_cases hc : c
  · rw [if_pos hc] at h
    simp at h
  · exact hc

/-- `Join` of at least as many parts as its length plus one. -/
theorem joinB_length_ge (sep : Bytes) (hsep : 1 ≤ sep.length) :
    ∀ parts : List Bytes, parts.length ≤ (joinB sep parts).length + 1
  | [] => by simp
  | [p] => by simp [joinB]
  | p :: q :: rest => by
      have ih := joinB_length_ge sep hsep (q :: rest)
      have hj : joinB sep (p :: q :: rest) = p ++ sep ++ joinB sep (q :: rest) := rfl
      rw [hj]
      simp only [List.length_cons, List.length_append] at ih ⊢
      omega

/-- `Join` of non-empty parts is non-empty. -/
theorem joinB_ne_nil (sep : Bytes) : ∀ parts : List Bytes, parts ≠ [] →
    (∀ p ∈ parts, p ≠ []) → joinB sep parts ≠ []
  | [], hne, _ => absurd rfl hne
  | [p], _, hp => by simpa [joinB] using hp p (List.mem_cons_self _ _)
  | p :: q :: rest, _, hp => by
      have hj : joinB sep (p :: q :: rest) = p ++ sep ++ joinB sep (q :: rest) := rfl
      rw [hj]
      have hpne := hp p (List.mem_cons_self _ _)
      simp [hpne]

/-- Record extensionality for `URL`. -/
theorem URL_ext (a b : URL) (h1 : a.Typ = b.Typ) (h2 : a.Issuer = b.Issuer)
    (h3 : a.Account = b.Account) (h4 : a.RawSecret = b.RawSecret)
    (h5 : a.Algorithm = b.Algorithm) (h6 : a.Digits = b.Digits)
    (h7 : a.Period = b.Period) (h8 : a.Counter = b.Counter) : a = b := by
  cases a
  cases b
  simp only [URL.mk.injEq]
  exact ⟨h1, h2, h3, h4, h5, h6, h7, h8⟩

/-- One parameter-fold step over a conditional singleton. -/
theorem parseParams_ite_single (c : Prop) [Decidable c] (p : Bytes) (rest : List Bytes)
    (o o2 : URL) (h : c → parseParam o p = .ok o2) :
    parseParams ((if c then [p] else []) ++ rest) o = parseParams rest (if c then o2 else o) := by
  by_cases hc : c
  · rw [if_pos hc, if_pos hc]
    simp only [List.cons_append, List.nil_append, parseParams, h hc]
    rfl
  · rw [if_neg hc, if_neg hc, List.nil_append]

/-- The parameter list in right-nested conditional-singleton form. -/
theorem urlParams_nf (u : URL) : urlParams u =
    (if toUpperB u.Algorithm ≠ [] ∧ toUpperB u.Algorithm ≠ bytesOf "SHA1" then
      [bytesOf "algorithm=" ++ pathEscape (toUpperB u.Algorithm)] else []) ++
    ((if 0 < u.Counter ∨ toLowerB u.Typ = bytesOf "hotp" then
      [bytesOf "counter=" ++ formatUint u.Counter] else []) ++
    ((if 0 < u.Digits ∧ u.Digits ≠ 6 then
      [bytesOf "digits=" ++ formatUint u.Digits.toNat] else []) ++
    ((if u.Issuer ≠ [] then [bytesOf "issuer=" ++ pathEscape u.Issuer] else []) ++
    ((if 0 < u.Period ∧ u.Period ≠ 30 then
      [bytesOf "period=" ++ formatUint u.Period.toNat] else []) ++
    ((if u.RawSecret ≠ [] then
      [bytesOf "secret=" ++ pathEscape (toUpperB (dropSpaces (trimRightEqB u.RawSecret)))]
      else []) ++ []))))) := by
  simp only [urlParams, ite_append_single]
  simp only [List.nil_append, List.append_assoc, List.append_nil]

/-- Identity of `pathEscape` on strings without escapable bytes. -/
theorem pathEscape_id (s : Bytes) (h : ∀ c ∈ s, shouldEscapePS c = false) :
    pathEscape s = s := by
  induction s with
  | nil => rfl
  | cons c t ih =>
      have hc := h c (List.mem_cons_self _ _)
      have hT := ih (fun x hx => h x (List.mem_cons_of_mem _ hx))
      simp only [pathEscape] at hT ⊢
      simp only [List.flatMap_cons, hc, Bool.false_eq_true, if_false, hT]
      rfl


/-! ## C6: label and parameter round-trip lemmas -/

/-- `parseLabel` on an escaped label without an issuer part. -/
theorem parseLabel_no_issuer (o : URL) (acc : Bytes) (h256 : ∀ c ∈ acc, c < 256)
    (h58 : (58 : Nat) ∉ acc) (htr : trimSpaceB acc = acc) (hne : acc ≠ []) :
    URL.parseLabel o (pathEscape acc) = .ok { o with Account := acc } := by
  simp only [URL.parseLabel, pathUnescape_pathEscape acc h256,
    indexOfSub_none 58 [58] rfl acc h58, htr]
  rw [if_neg hne]

/-- `parseLabel` on an escaped `issuer:account` label. -/
theorem parseLabel_with_issuer (o : URL) (iss acc : Bytes)
    (hi256 : ∀ c ∈ iss, c < 256) (hi58 : (58 : Nat) ∉ iss)
    (hitr : trimSpaceB iss = iss) (hine : iss ≠ [])
    (h256 : ∀ c ∈ acc, c < 256) (h58 : (58 : Nat) ∉ acc)
    (htr : trimSpaceB acc = acc) (hne : acc ≠ []) :
    URL.parseLabel o (pathEscape iss ++ [58] ++ pathEscape acc) =
      .ok { o with Issuer := iss, Account := acc } := by
  have hdec : pathUnescape (pathEscape iss ++ [58] ++ pathEscape acc) =
      some (iss ++ 58 :: acc) := by
    rw [List.append_assoc, pathUnescape_escape_append iss _ hi256, List.singleton_append,
      pathUnescape_cons_ne 58 _ (by decide), pathUnescape_pathEscape acc h256]
    rfl
  have hidx : indexOfSub [58] (iss ++ 58 :: acc) = some iss.length := by
    have h := indexOfSub_first 58 [58] iss acc rfl hi58
    simpa [List.append_assoc] using h
  have htake : (iss ++ 58 :: acc).take iss.length = iss := List.take_left iss _
  have hdrop : (iss ++ 58 :: acc).drop (iss.length + 1) = acc := by
    rw [show iss ++ 58 :: acc = (iss ++ [58]) ++ acc by simp]
    exact List.drop_left' (by simp)
  simp only [URL.parseLabel, hdec, hidx, htake, hdrop, hitr]
  rw [if_neg hine]
  simp only [htr]
  rw [if_neg hne]

/-- `parseLabel` on a serialized label, for both issuer shapes. -/
theorem parseLabel_labelString (o u : URL) (hoiss : o.Issuer = [])
    (hiss : u.Issuer = [] ∨ (trimSpaceB u.Issuer = u.Issuer ∧ u.Issuer ≠ []))
    (hi256 : ∀ c ∈ u.Issuer, c < 256) (hi58 : (58 : Nat) ∉ u.Issuer)
    (h256 : ∀ c ∈ u.Account, c < 256) (h58 : (58 : Nat) ∉ u.Account)
    (htr : trimSpaceB u.Account = u.Account) (hne : u.Account ≠ []) :
    URL.parseLabel o u.labelString = .ok { o with Issuer := u.Issuer, Account := u.Account } := by
  rcases hiss with hi0 | ⟨hitr, hine⟩
  · rw [show u.labelString = pathEscape u.Account by
      rw [URL.labelString, if_neg (by simp [hi0])]]
    rw [parseLabel_no_issuer o u.Account h256 h58 htr hne, hi0]
    exact congrArg Except.ok (URL_ext _ _ rfl (by simp [hoiss]) rfl rfl rfl rfl rfl rfl)
  · rw [show u.labelString = pathEscape u.Issuer ++ [58] ++ pathEscape u.Account by
      rw [URL.labelString, if_pos hine]]
    exact parseLabel_with_issuer o u.Issuer u.Account hi256 hi58 hitr hine h256 h58 htr hne

/-- `parseParam` on a serialized `algorithm` parameter. -/
theorem parseParam_algorithm (o : URL) (A : Bytes) (h256 : ∀ c ∈ A, c < 256) :
    parseParam o (bytesOf "algorithm=" ++ pathEscape A) =
      .ok { o with Algorithm := toUpperB A } := by
  have hkey : splitN2 (bytesOf "algorithm=" ++ pathEscape A) (bytesOf "=") =
      [bytesOf "algorithm", pathEscape A] := by
    rw [show bytesOf "algorithm=" ++ pathEscape A =
        bytesOf "algorithm" ++ bytesOf "=" ++ pathEscape A from rfl]
    exact splitN2_first 61 _ _ _ rfl (by decide)
  simp only [parseParam, hkey, List.getD_cons_zero, List.getD_cons_succ,
    pathUnescape_pathEscape A h256]
  simp

/-- `parseParam` on a serialized `issuer` parameter. -/
theorem parseParam_issuer (o : URL) (I : Bytes) (h256 : ∀ c ∈ I, c < 256) :
    parseParam o (bytesOf "issuer=" ++ pathEscape I) = .ok { o with Issuer := I } := by
  have hkey : splitN2 (bytesOf "issuer=" ++ pathEscape I) (bytesOf "=") =
      [bytesOf "issuer", pathEscape I] := by
    rw [show bytesOf "issuer=" ++ pathEscape I =
        bytesOf "issuer" ++ bytesOf "=" ++ pathEscape I from rfl]
    exact splitN2_first 61 _ _ _ rfl (by decide)
  simp only [parseParam, hkey, List.getD_cons_zero, List.getD_cons_succ,
    pathUnescape_pathEscape I h256]
  simp [show bytesOf "issuer" ≠ bytesOf "algorithm" from by decide]

/-- `parseParam` on a serialized `secret` parameter (`%`-free payload). -/
theorem parseParam_secret (o : URL) (S : Bytes) (h37 : ∀ c ∈ S, c ≠ 37) :
    parseParam o (bytesOf "secret=" ++ S) = .ok { o with RawSecret := S } := by
  have hkey : splitN2 (bytesOf "secret=" ++ S) (bytesOf "=") = [bytesOf "secret", S] := by
    rw [show bytesOf "secret=" ++ S = bytesOf "secret" ++ bytesOf "=" ++ S from rfl]
    exact splitN2_first 61 _ _ _ rfl (by decide)
  simp only [parseParam, hkey, List.getD_cons_zero, List.getD_cons_succ,
    pathUnescape_no_pct S h37]
  simp [show bytesOf "secret" ≠ bytesOf "algorithm" from by decide,
    show bytesOf "secret" ≠ bytesOf "issuer" from by decide]

/-- `parseParam` on a serialized `counter` parameter. -/
theorem parseParam_counter (o : URL) (n : Nat) (h : n < 18446744073709551616) :
    parseParam o (bytesOf "counter=" ++ formatUint n) = .ok { o with Counter := n } := by
  have hkey : splitN2 (bytesOf "counter=" ++ formatUint n) (bytesOf "=") =
      [bytesOf "counter", formatUint n] := by
    rw [show bytesOf "counter=" ++ formatUint n =
        bytesOf "counter" ++ bytesOf "=" ++ formatUint n from rfl]
    exact splitN2_first 61 _ _ _ rfl (by decide)
  have h37 : ∀ c ∈ formatUint n, c ≠ 37 := fun c hc => by
    have := formatUint_digits n c hc
    omega
  simp only [parseParam, hkey, List.getD_cons_zero, List.getD_cons_succ,
    pathUnescape_no_pct (formatUint n) h37, parseUint64_formatUint n h]
  simp [show bytesOf "counter" ≠ bytesOf "algorithm" from by decide,
    show bytesOf "counter" ≠ bytesOf "issuer" from by decide,
    show bytesOf "counter" ≠ bytesOf "secret" from by decide]

/-- `parseParam` on a serialized `digits` parameter. -/
theorem parseParam_digits (o : URL) (n : Nat) (h : n < 9223372036854775808) :
    parseParam o (bytesOf "digits=" ++ formatUint n) = .ok { o with Digits := (n : Int) } := by
  have hkey : splitN2 (bytesOf "digits=" ++ formatUint n) (bytesOf "=") =
      [bytesOf "digits", formatUint n] := by
    rw [show bytesOf "digits=" ++ formatUint n =
        bytesOf "digits" ++ bytesOf "=" ++ formatUint n from rfl]
    exact splitN2_first 61 _ _ _ rfl (by decide)
  have h37 : ∀ c ∈ formatUint n, c ≠ 37 := fun c hc => by
    have := formatUint_digits n c hc
    omega
  simp only [parseParam, hkey, List.getD_cons_zero, List.getD_cons_succ,
    pathUnescape_no_pct (formatUint n) h37, parseUint64_formatUint n (by omega)]
  simp [show bytesOf "digits" ≠ bytesOf "algorithm" from by decide,
    show bytesOf "digits" ≠ bytesOf "issuer" from by decide,
    show bytesOf "digits" ≠ bytesOf "secret" from by decide,
    show bytesOf "digits" ≠ bytesOf "counter" from by decide, int64OfUint64, h]

/-- `parseParam` on a serialized `period` parameter. -/
theorem parseParam_period (o : URL) (n : Nat) (h : n < 9223372036854775808) :
    parseParam o (bytesOf "period=" ++ formatUint n) = .ok { o with Period := (n : Int) } := by
  have hkey : splitN2 (bytesOf "period=" ++ formatUint n) (bytesOf "=") =
      [bytesOf "period", formatUint n] := by
    rw [show bytesOf "period=" ++ formatUint n =
        bytesOf "period" ++ bytesOf "=" ++ formatUint n from rfl]
    exact splitN2_first 61 _ _ _ rfl (by decide)
  have h37 : ∀ c ∈ formatUint n, c ≠ 37 := fun c hc => by
    have := formatUint_digits n c hc
    omega
  simp only [parseParam, hkey, List.getD_cons_zero, List.getD_cons_succ,
    pathUnescape_no_pct (formatUint n) h37, parseUint64_formatUint n (by omega)]
  simp [show bytesOf "period" ≠ bytesOf "algorithm" from by decide,
    show bytesOf "period" ≠ bytesOf "issuer" from by decide,
    show bytesOf "period" ≠ bytesOf "secret" from by decide,
    show bytesOf "period" ≠ bytesOf "counter" from by decide,
    show bytesOf "period" ≠ bytesOf "digits" from by decide, int64OfUint64, h]


/-- Uppercasing keeps the base32-style secret alphabet in `2-7A-Z`. -/
theorem toUpperB_secret_range (s : Bytes)
    (hs : ∀ c ∈ s, (50 ≤ c ∧ c ≤ 55) ∨ (65 ≤ c ∧ c ≤ 90) ∨ (97 ≤ c ∧ c ≤ 122)) :
    ∀ c ∈ toUpperB s, (50 ≤ c ∧ c ≤ 55) ∨ (65 ≤ c ∧ c ≤ 90) := by
  intro c hc
  simp only [toUpperB, List.mem_map] at hc
  obtain ⟨d, hd, rfl⟩ := hc
  by_cases hcase : 97 ≤ d ∧ d ≤ 122
  · rw [if_pos hcase]
    rcases hs d hd with h | h | h <;> omega
  · rw [if_neg hcase]
    rcases hs d hd with h | h | h <;> omega

/-- Bytes in `2-7A-Z` pass through `pathEscape` unescaped. -/
theorem shouldEscapePS_alnum_false (c : Nat)
    (h : (50 ≤ c ∧ c ≤ 55) ∨ (65 ≤ c ∧ c ≤ 90)) : shouldEscapePS c = false := by
  rw [shouldEscapePS, if_pos]
  simp only [Bool.or_eq_true, Bool.and_eq_true, decide_eq_true_eq]
  omega

/-- C6 (amended): round-trip of `URL.String` and `ParseURL` on well-formed
values whose label fields avoid the unescaped reserved bytes. -/
theorem c6_round_trip (u : URL)
    (htyp : u.Typ = bytesOf "totp" ∨ u.Typ = bytesOf "hotp")
    (hacc_ne : u.Account ≠ []) (hacc_trim : trimSpaceB u.Account = u.Account)
    (hacc256 : ∀ c ∈ u.Account, c < 256)
    (hacc58 : (58 : Nat) ∉ u.Account) (hacc63 : (63 : Nat) ∉ u.Account)
    (hiss : u.Issuer = [] ∨ (trimSpaceB u.Issuer = u.Issuer ∧ u.Issuer ≠ []))
    (hiss256 : ∀ c ∈ u.Issuer, c < 256) (hiss58 : (58 : Nat) ∉ u.Issuer)
    (hiss63 : (63 : Nat) ∉ u.Issuer) (hiss38 : (38 : Nat) ∉ u.Issuer)
    (halg : u.Algorithm = [] ∨ u.Algorithm = bytesOf "SHA1" ∨
      u.Algorithm = bytesOf "SHA256" ∨ u.Algorithm = bytesOf "SHA512")
    (hdig : u.Digits = 0 ∨ (0 < u.Digits ∧ u.Digits < 9223372036854775808))
    (hper : u.Period = 0 ∨ (0 < u.Period ∧ u.Period < 9223372036854775808))
    (hctr : u.Counter < 18446744073709551616)
    (hsec : ∀ c ∈ u.RawSecret,
      (50 ≤ c ∧ c ≤ 55) ∨ (65 ≤ c ∧ c ≤ 90) ∨ (97 ≤ c ∧ c ≤ 122)) :
    ParseURL (URL.String u) = .ok
      { Typ := u.Typ, Issuer := u.Issuer, Account := u.Account,
        RawSecret := toUpperB u.RawSecret,
        Algorithm := if u.Algorithm = bytesOf "SHA256" ∨ u.Algorithm = bytesOf "SHA512"
          then u.Algorithm else bytesOf "SHA1",
        Digits := if u.Digits = 0 then 6 else u.Digits,
        Period := if u.Period = 0 then 30 else u.Period,
        Counter := u.Counter } := by
  -- facts about the (lower-case) type
  have hlow : toLowerB u.Typ = u.Typ := by rcases htyp with h | h <;> rw [h] <;> decide
  have hT47 : (47 : Nat) ∉ u.Typ := by rcases htyp with h | h <;> rw [h] <;> decide
  have hT63 : (63 : Nat) ∉ u.Typ := by rcases htyp with h | h <;> rw [h] <;> decide
  have hTne : u.Typ ≠ [] := by rcases htyp with h | h <;> rw [h] <;> decide
  have hTpre : ∀ x, hasPrefixB (u.Typ ++ x) (bytesOf "//") = false := by
    rcases htyp with h | h <;> rw [h] <;> intro x <;> rfl
  -- algorithm and secret normalizations
  have halgU : toUpperB u.Algorithm = u.Algorithm := by
    rcases halg with h | h | h | h <;> rw [h] <;> decide
  have halg256 : ∀ c ∈ u.Algorithm, c < 256 := by
    rcases halg with h | h | h | h <;> rw [h] <;> decide
  have hsecU : toUpperB (dropSpaces (trimRightEqB u.RawSecret)) = toUpperB u.RawSecret := by
    rw [trimRightEqB_id _ (fun hm => by rcases hsec 61 hm with ⟨a, b⟩ | ⟨a, b⟩ | ⟨a, b⟩ <;> omega),
      dropSpaces_id _ (fun c hc => by
        rcases hsec c hc with ⟨a, b⟩ | ⟨a, b⟩ | ⟨a, b⟩ <;>
          · simp only [isSpaceByte, Bool.or_eq_false_iff, beq_eq_false_iff_ne, ne_eq]
            omega)]
  have hsecR := toUpperB_secret_range u.RawSecret hsec
  have hsecEsc : pathEscape (toUpperB u.RawSecret) = toUpperB u.RawSecret :=
    pathEscape_id _ (fun c hc => shouldEscapePS_alnum_false c (hsecR c hc))
  have hsec37 : ∀ c ∈ toUpperB u.RawSecret, c ≠ 37 := fun c hc => by
    rcases hsecR c hc with ⟨a, b⟩ | ⟨a, b⟩ <;> omega
  -- label facts
  have hAesc63 : (63 : Nat) ∉ pathEscape u.Account :=
    pathEscape_not_mem _ _ hacc256 hacc63 (by decide) (by decide) (by decide)
  have hLne : u.labelString ≠ [] := by
    rw [URL.labelString]
    by_cases hi : u.Issuer ≠ []
    · rw [if_pos hi]
      simp
    · rw [if_neg hi]
      exact pathEscape_ne_nil _ hacc_ne
  have hL63 : (63 : Nat) ∉ u.labelString := by
    rw [URL.labelString]
    by_cases hi : u.Issuer ≠ []
    · rw [if_pos hi]
      have hI : (63 : Nat) ∉ pathEscape u.Issuer :=
        pathEscape_not_mem _ _ hiss256 hiss63 (by decide) (by decide) (by decide)
      simp only [List.mem_append, List.mem_singleton]
      rintro ((h | h) | h)
      · exact hI h
      · simp at h
      · exact hAesc63 h
    · rw [if_neg hi]
      exact hAesc63
  have hQmem : (63 : Nat) ∉ u.Typ ++ (bytesOf "/" ++ u.labelString) := by
    simp only [List.mem_append]
    rintro (h | h | h)
    · exact hT63 h
    · revert h
      decide
    · exact hL63 h
  -- the slash split and the label parse, shared by both query shapes
  have hsplitSlash : splitN2 (u.Typ ++ (bytesOf "/" ++ u.labelString)) (bytesOf "/") =
      [u.Typ, u.labelString] := by
    rw [← List.append_assoc]
    exact splitN2_first 47 (bytesOf "/") u.Typ u.labelString rfl hT47
  have hTLne : ¬(u.Typ = [] ∨ u.labelString = []) := by
    rintro (h | h)
    · exact hTne h
    · exact hLne h
  by_cases hP : urlParams u = []
  · -- no parameters: the serialized form has no query part
    have hstr : URL.String u = bytesOf "otpauth" ++ bytesOf "://" ++
        (u.Typ ++ (bytesOf "/" ++ u.labelString)) := by
      rw [URL.String, hlow, if_neg (by simpa using hP),
        show (bytesOf "otpauth://" : Bytes) = bytesOf "otpauth" ++ bytesOf "://" from by decide,
        show ([47] : Bytes) = bytesOf "/" from by decide]
      simp only [List.append_assoc, List.append_nil]
    rw [hstr]
    simp only [ParseURL,
      splitN2_first 58 (bytesOf "://") (bytesOf "otpauth")
        (u.Typ ++ (bytesOf "/" ++ u.labelString)) rfl (by decide),
      if_true,
      splitN2_none_eq (bytesOf "?") _ (indexOfSub_none 63 (bytesOf "?") rfl _ hQmem),
      trimPrefixB, hTpre, Bool.false_eq_true, if_false, hsplitSlash,
      if_neg hTLne, hlow,
      parseLabel_labelString { Typ := u.Typ, Algorithm := bytesOf "SHA1", Digits := 6, Period := 30 }
        u rfl hiss hiss256 hiss58 hacc256 hacc58 hacc_trim hacc_ne]
    have hnil := hP
    rw [urlParams_nf] at hnil
    simp only [List.append_nil, List.append_eq_nil] at hnil
    obtain ⟨h1, h2, h3, h4, h5, h6⟩ := hnil
    have hc1 := ite_single_eq_nil h1
    have hc2 := ite_single_eq_nil h2
    have hc3 := ite_single_eq_nil h3
    have hc5 := ite_single_eq_nil h5
    have hc6 := ite_single_eq_nil h6
    rw [halgU] at hc1
    rw [hlow] at hc2
    have halg' : u.Algorithm = [] ∨ u.Algorithm = bytesOf "SHA1" := by
      rcases halg with h | h | h | h
      · exact Or.inl h
      · exact Or.inr h
      · exact absurd ⟨by rw [h]; decide, by rw [h]; decide⟩ hc1
      · exact absurd ⟨by rw [h]; decide, by rw [h]; decide⟩ hc1
    refine congrArg Except.ok (URL_ext _ _ rfl rfl rfl ?_ ?_ ?_ ?_ ?_)
    · rw [not_not.mp hc6]
      rfl
    · have hAlgNe : ¬(u.Algorithm = bytesOf "SHA256" ∨ u.Algorithm = bytesOf "SHA512") := by
        rcases halg' with h | h <;> rw [h] <;> decide
      rw [if_neg hAlgNe]
    · rcases hdig with h | ⟨h1', h2'⟩
      · rw [h, if_pos rfl]
      · have h6' : u.Digits = 6 := by
          by_contra hne
          exact hc3 ⟨h1', hne⟩
        have h60 : ¬((6 : Int) = 0) := by decide
        rw [h6', if_neg h60]
    · rcases hper with h | ⟨h1', h2'⟩
      · rw [h, if_pos rfl]
      · have h30 : u.Period = 30 := by
          by_contra hne
          exact hc5 ⟨h1', hne⟩
        have h300 : ¬((30 : Int) = 0) := by decide
        rw [h30, if_neg h300]
    · have : ¬0 < u.Counter := fun hlt => hc2 (Or.inl hlt)
      show (0 : Nat) = u.Counter
      omega
  · -- parameters present: query part `?` ++ the joined parameters
    have hstr : URL.String u = bytesOf "otpauth" ++ bytesOf "://" ++
        ((u.Typ ++ (bytesOf "/" ++ u.labelString)) ++ bytesOf "?" ++
          joinB (bytesOf "&") (urlParams u)) := by
      rw [URL.String, hlow, if_pos hP,
        show (bytesOf "otpauth://" : Bytes) = bytesOf "otpauth" ++ bytesOf "://" from by decide,
        show ([47] : Bytes) = bytesOf "/" from by decide,
        show ([63] : Bytes) = bytesOf "?" from by decide]
      simp only [List.append_assoc]
    have hpne : ∀ p ∈ urlParams u, p ≠ [] := by
      rw [urlParams_nf]
      intro p hp
      simp only [List.mem_append, List.append_nil, List.not_mem_nil, or_false] at hp
      rcases hp with h | h | h | h | h | h <;> rw [mem_ite_single h] <;>
        · intro he
          rcases List.append_eq_nil.mp he with ⟨h1, h2⟩
          revert h1
          decide
    have h38 : ∀ p ∈ urlParams u, (38 : Nat) ∉ p := by
      rw [urlParams_nf, halgU, hsecU, hsecEsc]
      intro p hp
      simp only [List.mem_append, List.append_nil, List.not_mem_nil, or_false] at hp
      have hdigits : ∀ n : Nat, (38 : Nat) ∉ formatUint n := fun n hm => by
        have := formatUint_digits n 38 hm
        omega
      have halg38 : (38 : Nat) ∉ u.Algorithm := by
        rcases halg with h | h | h | h <;> rw [h] <;> decide
      rcases hp with h | h | h | h | h | h <;> rw [mem_ite_single h] <;> intro hm <;>
        rcases List.mem_append.mp hm with hm | hm
      · revert hm; decide
      · exact pathEscape_not_mem _ _ halg256 halg38 (by decide) (by decide) (by decide) hm
      · revert hm; decide
      · exact hdigits _ hm
      · revert hm; decide
      · exact hdigits _ hm
      · revert hm; decide
      · exact pathEscape_not_mem _ _ hiss256 hiss38 (by decide) (by decide) (by decide) hm
      · revert hm; decide
      · exact hdigits _ hm
      · revert hm; decide
      · rcases hsecR 38 hm with ⟨a, b⟩ | ⟨a, b⟩ <;> omega
    have hJne : joinB (bytesOf "&") (urlParams u) ≠ [] :=
      joinB_ne_nil  _ _ hP hpne
    have hd63 : u.Digits.toNat < 9223372036854775808 := by
      rcases hdig with h | ⟨h1', h2'⟩ <;> omega
    have hp63 : u.Period.toNat < 9223372036854775808 := by
      rcases hper with h | ⟨h1', h2'⟩ <;> omega
    rw [hstr]
    simp only [ParseURL,
      splitN2_first 58 (bytesOf "://") (bytesOf "otpauth")
        ((u.Typ ++ (bytesOf "/" ++ u.labelString)) ++ bytesOf "?" ++
          joinB (bytesOf "&") (urlParams u)) rfl (by decide),
      if_true,
      splitN2_first 63 (bytesOf "?") (u.Typ ++ (bytesOf "/" ++ u.labelString))
        (joinB (bytesOf "&") (urlParams u)) rfl hQmem,
      trimPrefixB, hTpre, Bool.false_eq_true, if_false, hsplitSlash,
      if_neg hTLne, hlow,
      parseLabel_labelString { Typ := u.Typ, Algorithm := bytesOf "SHA1", Digits := 6, Period := 30 }
        u rfl hiss hiss256 hiss58 hacc256 hacc58 hacc_trim hacc_ne,
      if_neg hJne, goSplit,
      goSplitF_joinB (urlParams u) ((joinB (bytesOf "&") (urlParams u)).length) hP h38
        (joinB_length_ge (bytesOf "&") (by decide) (urlParams u))]
    rw [urlParams_nf, halgU, hsecU, hsecEsc, hlow]
    rw [parseParams_ite_single _ _ _ _ _ (fun hc => parseParam_algorithm _ u.Algorithm halg256)]
    rw [parseParams_ite_single _ _ _ _ _ (fun hc => parseParam_counter _ u.Counter hctr)]
    rw [parseParams_ite_single _ _ _ _ _ (fun hc => parseParam_digits _ u.Digits.toNat hd63)]
    rw [parseParams_ite_single _ _ _ _ _ (fun hc => parseParam_issuer _ u.Issuer hiss256)]
    rw [parseParams_ite_single _ _ _ _ _ (fun hc => parseParam_period _ u.Period.toNat hp63)]
    rw [parseParams_ite_single _ _ _ _ _ (fun hc => parseParam_secret _ (toUpperB u.RawSecret) hsec37)]
    simp only [parseParams]
    refine congrArg Except.ok (URL_ext _ _ ?_ ?_ ?_ ?_ ?_ ?_ ?_ ?_)
    · simp [apply_ite URL.Typ]
    · simp [apply_ite URL.Issuer]
    · simp [apply_ite URL.Account]
    · simp only [apply_ite URL.RawSecret, ite_self]
      by_cases hs6 : u.RawSecret = []
      · rw [if_neg (not_not_intro hs6), hs6]
        rfl
      · rw [if_pos hs6]
    · simp only [apply_ite URL.Algorithm, ite_self]
      rw [halgU]
      by_cases hca : u.Algorithm ≠ [] ∧ u.Algorithm ≠ bytesOf "SHA1"
      · have hor : u.Algorithm = bytesOf "SHA256" ∨ u.Algorithm = bytesOf "SHA512" := by
          rcases halg with h | h | h | h
          · exact absurd h hca.1
          · exact absurd h hca.2
          · exact Or.inl h
          · exact Or.inr h
        rw [if_pos hca, if_pos hor]
      · have halg' : u.Algorithm = [] ∨ u.Algorithm = bytesOf "SHA1" := by
          rcases halg with h | h | h | h
          · exact Or.inl h
          · exact Or.inr h
          · exact absurd ⟨by rw [h]; decide, by rw [h]; decide⟩ hca
          · exact absurd ⟨by rw [h]; decide, by rw [h]; decide⟩ hca
        have hAlgNe : ¬(u.Algorithm = bytesOf "SHA256" ∨ u.Algorithm = bytesOf "SHA512") := by
          rcases halg' with h | h <;> rw [h] <;> decide
        rw [if_neg hca, if_neg hAlgNe]
    · simp only [apply_ite URL.Digits, ite_self]
      by_cases hcd : 0 < u.Digits ∧ u.Digits ≠ 6
      · have hne0 : ¬(u.Digits = 0) := by omega
        have htn : ((u.Digits.toNat : Nat) : Int) = u.Digits := Int.toNat_of_nonneg (by omega)
        rw [if_pos hcd, htn, if_neg hne0]
      · rcases hdig with h | ⟨h1', h2'⟩
        · rw [if_neg hcd, h, if_pos rfl]
        · have h6' : u.Digits = 6 := by
            by_contra hne
            exact hcd ⟨h1', hne⟩
          have h60 : ¬((6 : Int) = 0) := by decide
          rw [if_neg hcd, h6', if_neg h60]
    · simp only [apply_ite URL.Period, ite_self]
      by_cases hcp : 0 < u.Period ∧ u.Period ≠ 30
      · have hne0 : ¬(u.Period = 0) := by omega
        have htn : ((u.Period.toNat : Nat) : Int) = u.Period := Int.toNat_of_nonneg (by omega)
        rw [if_pos hcp, htn, if_neg hne0]
      · rcases hper with h | ⟨h1', h2'⟩
        · rw [if_neg hcp, h, if_pos rfl]
        · have h30 : u.Period = 30 := by
            by_contra hne
            exact hcp ⟨h1', hne⟩
          have h300 : ¬((30 : Int) = 0) := by decide
          rw [if_neg hcp, h30, if_neg h300]
    · simp only [apply_ite URL.Counter, ite_self]
      by_cases hcc : 0 < u.Counter ∨ u.Typ = bytesOf "hotp"
      · rw [if_pos hcc]
      · rw [if_neg hcc]
        have hc0 : ¬0 < u.Counter := fun h => hcc (Or.inl h)
        omega

/-- C6 counterexample: a well-formed account whose name contains `:` does
not round-trip, because `PathEscape` leaves `:` unescaped and `parseLabel`
then reads it as an issuer separator. -/
theorem c6_counterexample_colon_account :
    ParseURL (URL.String { Typ := bytesOf "totp", Account := bytesOf "a:b" }) =
      .ok { Typ := bytesOf "totp", Issuer := bytesOf "a", Account := bytesOf "b",
            Algorithm := bytesOf "SHA1", Digits := 6, Period := 30 } ∧
    (bytesOf "a:b" : Bytes) ≠ bytesOf "b" := by decide

/-- C6 witness: a fully-populated concrete account round-trips. -/
theorem c6_round_trip_witness :
    ParseURL (URL.String { Typ := bytesOf "totp", Issuer := bytesOf "Git Hub",
                           Account := bytesOf "alice", RawSecret := bytesOf "jbswy3dp",
                           Algorithm := bytesOf "SHA256", Digits := 8, Period := 60,
                           Counter := 5 }) =
      .ok { Typ := bytesOf "totp", Issuer := bytesOf "Git Hub", Account := bytesOf "alice",
            RawSecret := bytesOf "JBSWY3DP", Algorithm := bytesOf "SHA256",
            Digits := 8, Period := 60, Counter := 5 } :=
  c6_round_trip _ (Or.inl rfl) (by decide) (by decide) (by decide) (by decide) (by decide)
    (Or.inr (by decide)) (by decide) (by decide) (by decide) (by decide)
    (Or.inr (Or.inr (Or.inl rfl))) (Or.inr (by decide)) (Or.inr (by decide))
    (by decide) (by decide)


end Gauth
